import Mathlib

/-!
# HX711 load-cell amplifier driver (`HX711.cpp`, `HX711.h`)

A shallow embedding of the driver.  The two pins are the only contact with the
outside: every construction of a pin object, every write to the clock pin,
every sample of the data pin, every `wait_us` and every entry to or exit from
the critical section is recorded, in order, in an event trace.  The data line
is a script `pin : Nat → Bool` (`true` is the high level): the `n`-th sample
taken since the start of the run returns `pin n`.

Machine integers: `int` is 32 bits wide.  The local `buffer` of `read` is kept
as its 32-bit two's-complement pattern (a natural number below `2^32`) and is
turned into its signed value when it is returned; `int` sums and differences
are wrapped by `wrapInt32`; `int` division is `Int.tdiv`, also where the
divisor is 0 and the language defines no result.  A `uint8_t` parameter
receives its argument reduced modulo `2^8`.  `float` and `double` arithmetic is a parameter
(`FloatOps`).

`waitReady` is an unbounded loop in the source; here it takes a `fuel` bound
on the number of polls and reports `Fault.outOfFuel` when the bound is reached.
-/

namespace HX711

/-- Observable actions of the driver on its collaborators. -/
inductive Event where
  /-- Construction of a `DigitalOut` on the clock pin. -/
  | sckOut
  /-- Construction of a `DigitalIn` on the data pin. -/
  | dataIn
  /-- Assignment `sck = level`. -/
  | sckWrite (level : Bool)
  /-- One sample of the data pin, with the level obtained. -/
  | dataRead (level : Bool)
  /-- Call `wait_us(us)`. -/
  | waitUs (us : Int)
  /-- Call `CriticalSectionLock::enable()`. -/
  | lock
  /-- Call `CriticalSectionLock::disable()`. -/
  | unlock
  deriving DecidableEq, Repr

/-- The members of the class (`_offset`, `_scale`, `_gain`; the two pin names
are fixed and carry no behaviour) together with the state of the outside:
how many samples of the data line were taken and the trace of events. -/
structure State (F : Type) where
  _offset : Int
  _scale : F
  _gain : Nat
  samples : Nat
  trace : List Event
  deriving DecidableEq, Repr

/-- Ways in which a call of the model does not return a value. -/
inductive Fault (F : Type) where
  /-- The polling bound of `waitReady` was reached. -/
  | outOfFuel
  deriving DecidableEq, Repr

/-- The arithmetic of `float` (`F`) and `double` (`D`) used by the driver. -/
structure FloatOps (F D : Type) where
  /-- The literal `1.0f`. -/
  one : F
  /-- Conversion `int → double`. -/
  ofInt : Int → D
  /-- Promotion `float → double`. -/
  widen : F → D
  /-- Division of two `double`s. -/
  div : D → D → D
  /-- Conversion `double → float` of a returned value. -/
  narrow : D → F

/-- Value received by a `uint8_t` parameter. -/
def toUint8 (n : Nat) : Nat := n % 2 ^ 8

/-- Signed value of a 32-bit pattern. -/
def toInt32 (w : Nat) : Int :=
  if w % 2 ^ 32 < 2 ^ 31 then ((w % 2 ^ 32 : Nat) : Int) else ((w % 2 ^ 32 : Nat) : Int) - 2 ^ 32

/-- Result of an `int` operation whose exact value is `x`, wrapped to 32 bits. -/
def wrapInt32 (x : Int) : Int := (x + 2 ^ 31) % 2 ^ 32 - 2 ^ 31

variable {F : Type}

/-- Record one event. -/
def State.emit (st : State F) (e : Event) : State F :=
  { st with trace := st.trace ++ [e] }

/-- Sample the data pin: `data.read()`. -/
def State.sample (pin : Nat → Bool) (st : State F) : Bool × State F :=
  (pin st.samples,
   { st with samples := st.samples + 1, trace := st.trace ++ [Event.dataRead (pin st.samples)] })

/-- Method `HX711::isReady`: `DigitalIn data(_pin_data); return data == 0;` -/
def isReady (pin : Nat → Bool) (st : State F) : Bool × State F :=
  let st := st.emit Event.dataIn
  let (level, st) := st.sample pin
  (level == false, st)

/-- Method `HX711::waitReady`: `while (!isReady()) { wait_us(delay_ms * 1000); }`,
with at most `fuel` polls. -/
def waitReady (pin : Nat → Bool) : Nat → Int → State F → Except (Fault F) (Unit × State F)
  | 0, _, _ => Except.error Fault.outOfFuel
  | fuel + 1, delay_ms, st =>
    let (ready, st) := isReady pin st
    if !ready then
      waitReady pin fuel delay_ms (st.emit (Event.waitUs (wrapInt32 (delay_ms * 1000))))
    else
      Except.ok ((), st)

/-- Loop of `HX711::waitReadyRetry`, `while (count < retries)`, with `n`
iterations left: poll, return `true` when ready, else wait and count. -/
def waitReadyRetryLoop (pin : Nat → Bool) (delay_ms : Int) : Nat → State F → Bool × State F
  | 0, st => (false, st)
  | n + 1, st =>
    let (ready, st) := isReady pin st
    if ready then (true, st)
    else waitReadyRetryLoop pin delay_ms n (st.emit (Event.waitUs (wrapInt32 (delay_ms * 1000))))

/-- Method `HX711::waitReadyRetry`: `count` runs from 0 up to `retries`, so the
loop has `retries` iterations, and none when `retries` is not positive. -/
def waitReadyRetry (pin : Nat → Bool) (retries delay_ms : Int) (st : State F) : Bool × State F :=
  waitReadyRetryLoop pin delay_ms retries.toNat st

/-- First loop of `HX711::read`, `for (uint8_t i = 24; i--;)`, with `i`
iterations left: clock high, shift, sample, increment, clock low. -/
def clockBits (pin : Nat → Bool) : Nat → Nat → State F → Nat × State F
  | 0, buffer, st => (buffer, st)
  | i + 1, buffer, st =>
    let st := st.emit (Event.sckWrite true)
    let buffer := (buffer <<< 1) % 2 ^ 32
    let (level, st) := st.sample pin
    let buffer := if level then (buffer + 1) % 2 ^ 32 else buffer
    let st := st.emit (Event.sckWrite false)
    clockBits pin i buffer st

/-- Second loop of `HX711::read`, `for (int i = 0; i < _gain; i++)`, with
`n` iterations left: clock high, clock low. -/
def gainPulses : Nat → State F → State F
  | 0, st => st
  | n + 1, st => gainPulses n ((st.emit (Event.sckWrite true)).emit (Event.sckWrite false))

/-- The "set sign" step of `HX711::read`:
`if (buffer & 0x800000) { buffer ^= 0xFF000000; }` -/
def setSign (buffer : Nat) : Nat :=
  if buffer &&& 0x800000 ≠ 0 then buffer ^^^ 0xFF000000 else buffer

/-- Method `HX711::read`. -/
def read (pin : Nat → Bool) (fuel : Nat) (st : State F) : Except (Fault F) (Int × State F) := do
  let buffer := 0
  let st := st.emit Event.sckOut
  let st := st.emit Event.dataIn
  let (_, st) ← waitReady pin fuel 0 st
  let st := st.emit Event.lock
  let (buffer, st) := clockBits pin 24 buffer st
  let st := gainPulses st._gain st
  let st := st.emit Event.unlock
  let buffer := setSign buffer
  pure (toInt32 buffer, st)

/-- Loop of `HX711::readAverage`, `for (int i = 0; i < times; i++) sum += read();`,
with `n` iterations left. -/
def sumReads (pin : Nat → Bool) (fuel : Nat) :
    Nat → Int → State F → Except (Fault F) (Int × State F)
  | 0, sum, st => Except.ok (sum, st)
  | n + 1, sum, st => do
    let (v, st) ← read pin fuel st
    sumReads pin fuel n (wrapInt32 (sum + v)) st

/-- Method `HX711::readAverage`; `sum / times` is the truncating division of
`int`, written without a guard as in the source.  For `times = 0` the language
leaves the result of the division undefined; `Int.tdiv` yields 0 there, which
is what the divide instruction of the target (trap off) and an optimised build
yield. -/
def readAverage (pin : Nat → Bool) (fuel : Nat) (times : Nat) (st : State F) :
    Except (Fault F) (Int × State F) := do
  let times := toUint8 times
  let (sum, st) ← sumReads pin fuel times 0 st
  pure (Int.tdiv sum (times : Int), st)

/-- Method `HX711::setOffset`. -/
def setOffset (offset : Int) (st : State F) : State F :=
  { st with _offset := offset }

/-- Method `HX711::setScale`. -/
def setScale (scale : F) (st : State F) : State F :=
  { st with _scale := scale }

/-- Method `HX711::getUnits`:
`double val = readAverage(times) - _offset; return val / _scale;` -/
def getUnits {D : Type} (fp : FloatOps F D) (pin : Nat → Bool) (fuel : Nat) (times : Nat)
    (st : State F) : Except (Fault F) (F × State F) := do
  let (avg, st) ← readAverage pin fuel times st
  let val := fp.ofInt (wrapInt32 (avg - st._offset))
  pure (fp.narrow (fp.div val (fp.widen st._scale)), st)

/-- Method `HX711::setGain`. -/
def setGain (pin : Nat → Bool) (fuel : Nat) (gain : Nat) (st : State F) :
    Except (Fault F) (Unit × State F) := do
  let st :=
    match toUint8 gain with
    | 128 => { st with _gain := 1 }
    | 64 => { st with _gain := 3 }
    | 32 => { st with _gain := 2 }
    | _ => st
  let st := st.emit Event.sckOut
  let st := st.emit (Event.sckWrite false)
  let (_, st) ← read pin fuel st
  pure ((), st)

/-- Method `HX711::powerDown`. -/
def powerDown (st : State F) : State F :=
  let st := st.emit Event.sckOut
  let st := st.emit (Event.sckWrite false)
  st.emit (Event.sckWrite true)

/-- Method `HX711::powerUp`. -/
def powerUp (st : State F) : State F :=
  let st := st.emit Event.sckOut
  st.emit (Event.sckWrite false)

/-- Method `HX711::tare`. -/
def tare (pin : Nat → Bool) (fuel : Nat) (times : Nat) (st : State F) :
    Except (Fault F) (Unit × State F) := do
  let (sum, st) ← readAverage pin fuel times st
  pure ((), setOffset sum st)

set_option linter.dupNamespace false in
/-- The constructor `HX711::HX711`.  `_gain` has no initialiser: `uninit` is
the content of its storage when the constructor starts; `samples` and `trace`
are the state of the outside at that moment. -/
def HX711 {D : Type} (fp : FloatOps F D) (pin : Nat → Bool) (fuel : Nat) (uninit : Nat)
    (gain : Nat) (samples : Nat) (trace : List Event) : Except (Fault F) (Unit × State F) :=
  let st : State F :=
    { _offset := 0, _scale := fp.one, _gain := toUint8 uninit, samples := samples, trace := trace }
  setGain pin fuel gain st

/-! ## Reference notions used to state the properties -/

/-- Value of a 24-bit word read as a two's-complement number. -/
def signed24 (v : Nat) : Int :=
  if v.testBit 23 then (v : Int) - 2 ^ 24 else (v : Int)

/-- The number whose binary digits are the 24 samples `pin q, ..., pin (q + 23)`,
the first sample being the most significant: bit `i` is `pin (q + (23 - i))`. -/
def msbFirst (pin : Nat → Bool) (q : Nat) : Nat :=
  ∑ i in Finset.range 24, (pin (q + (23 - i))).toNat * 2 ^ i

/-- Events of `k` polls that find the line high, each followed by a wait of
`us` microseconds, and of one poll that finds it low. -/
def pollEvents (us : Int) (k : Nat) : List Event :=
  (List.replicate k [Event.dataIn, Event.dataRead true, Event.waitUs us]).flatten ++
    [Event.dataIn, Event.dataRead false]

/-- Events of `n` clock pulses that each sample the data line once, the
samples being `pin q, pin (q + 1), ...`. -/
def bitEvents (pin : Nat → Bool) (q : Nat) (n : Nat) : List Event :=
  (List.range n).flatMap
    (fun j => [Event.sckWrite true, Event.dataRead (pin (q + j)), Event.sckWrite false])

/-- Events of `g` clock pulses without a sample. -/
def gainEvents (g : Nat) : List Event :=
  (List.replicate g [Event.sckWrite true, Event.sckWrite false]).flatten

/-- The data line first reads low at poll number `k + 1` of the polls that
start at sample `p`, and `fuel` allows that many polls. -/
def ReadyAt (pin : Nat → Bool) (fuel p k : Nat) : Prop :=
  k < fuel ∧ (∀ j, j < k → pin (p + j) = true) ∧ pin (p + k) = false


/-- Number of clock pulses in a trace: the writes of the high level to the
clock pin. -/
def clockPulses (tr : List Event) : Nat :=
  tr.count (Event.sckWrite true)

/-- Number of writes of the low level to the clock pin in a trace. -/
def clockFalls (tr : List Event) : Nat :=
  tr.count (Event.sckWrite false)

/-- Number of samples of the data pin in a trace. -/
def dataSamples (tr : List Event) : Nat :=
  tr.countP (fun e => match e with
    | Event.dataRead _ => true
    | _ => false)

/-- A data line that follows a finite script and stays high afterwards. -/
def script (l : List Bool) : Nat → Bool :=
  fun n => l.getD n true

/-- The 24 levels that transmit the word `v`, most significant bit first. -/
def wordBits (v : Nat) : List Bool :=
  (List.range 24).map (fun j => v.testBit (23 - j))

/-- A freshly initialised object (offset 0, scale `scale`, pulse count `g`)
before any event. -/
def idle (scale : F) (g : Nat) : State F :=
  { _offset := 0, _scale := scale, _gain := g, samples := 0, trace := [] }

/-- The pulse count that the documentation of the gain setting prescribes:
128 gives 1, 64 gives 3, 32 gives 2, and any other value keeps the prior
count. -/
def gainCode (gainValue prior : Nat) : Nat :=
  if gainValue = 128 then 1
  else if gainValue = 64 then 3
  else if gainValue = 32 then 2
  else prior

/-- The raw samples of `n` sequential calls of `read`, each starting in the
state that the previous one left, in the order in which they were read. -/
def readMany (pin : Nat → Bool) (fuel : Nat) :
    Nat → State F → Except (Fault F) (List Int × State F)
  | 0, st => Except.ok ([], st)
  | n + 1, st => do
    let (v, st) ← read pin fuel st
    let (vs, st) ← readMany pin fuel n st
    pure (v :: vs, st)

/-- Each of `n` sequential conversions that start at sample `p` finds the
data line low within `fuel` polls: a conversion that starts at sample `p`
and is ready at poll `k + 1` takes `k + 1` polling samples and 24 data
samples, so the next one starts at sample `p + k + 25`. -/
def ReadsReady (pin : Nat → Bool) (fuel : Nat) : Nat → Nat → Prop
  | 0, _ => True
  | n + 1, p => ∃ k, ReadyAt pin fuel p k ∧ ReadsReady pin fuel n (p + k + 25)

/-- A data line that repeats a script for ever. -/
def cyclic (l : List Bool) : Nat → Bool :=
  fun n => l.getD (n % l.length) true

/-- Arithmetic without rounding, on rational numbers.  It agrees with `float`
and `double` arithmetic whenever the operands and the result are numbers that
`float` represents exactly. -/
def exactOps : FloatOps ℚ ℚ :=
  { one := 1
    ofInt := fun n => (n : ℚ)
    widen := fun x => x
    div := fun x y => x / y
    narrow := fun x => x }

/-- The stored gain pulse count is 1, 2 or 3. -/
def GainOk (st : State F) : Prop :=
  st._gain = 1 ∨ st._gain = 2 ∨ st._gain = 3

/-- A call of a public operation on an existing object, with its arguments. -/
inductive Op (F : Type) where
  | setGain (gain : Nat)
  | read
  | readAverage (times : Nat)
  | tare (times : Nat)
  | getUnits (times : Nat)
  | setOffset (offset : Int)
  | setScale (scale : F)
  | powerDown
  | powerUp

/-- The state after a call that returns; the returned value is dropped. -/
def Op.run {D : Type} (fp : FloatOps F D) (pin : Nat → Bool) (fuel : Nat) :
    Op F → State F → Except (Fault F) (State F)
  | Op.setGain gain, st => (HX711.setGain pin fuel gain st).map Prod.snd
  | Op.read, st => (HX711.read pin fuel st).map Prod.snd
  | Op.readAverage times, st => (HX711.readAverage pin fuel times st).map Prod.snd
  | Op.tare times, st => (HX711.tare pin fuel times st).map Prod.snd
  | Op.getUnits times, st => (HX711.getUnits fp pin fuel times st).map Prod.snd
  | Op.setOffset offset, st => Except.ok (HX711.setOffset offset st)
  | Op.setScale scale, st => Except.ok (HX711.setScale scale st)
  | Op.powerDown, st => Except.ok (HX711.powerDown st)
  | Op.powerUp, st => Except.ok (HX711.powerUp st)

/-- The state after a sequence of calls that all return. -/
def runAll {D : Type} (fp : FloatOps F D) (pin : Nat → Bool) (fuel : Nat) :
    List (Op F) → State F → Except (Fault F) (State F)
  | [], st => Except.ok st
  | op :: ops, st => do
    let st ← op.run fp pin fuel st
    runAll fp pin fuel ops st

instance ReadyAt.decidable (pin : Nat → Bool) (fuel p k : Nat) :
    Decidable (ReadyAt pin fuel p k) := by
  unfold ReadyAt
  infer_instance

instance GainOk.decidable (st : State F) : Decidable (GainOk st) := by
  unfold GainOk
  infer_instance

instance ReadsReady.decidable (pin : Nat → Bool) (fuel : Nat) :
    ∀ n p, Decidable (ReadsReady pin fuel n p)
  | 0, _ => isTrue trivial
  | n + 1, p =>
    have : ∀ k, Decidable (ReadsReady pin fuel n (p + k + 25)) :=
      fun k => ReadsReady.decidable pin fuel n (p + k + 25)
    decidable_of_iff (∃ k, k < fuel ∧ ReadyAt pin fuel p k ∧ ReadsReady pin fuel n (p + k + 25))
      ⟨fun ⟨k, _, h⟩ => ⟨k, h⟩, fun ⟨k, h⟩ => ⟨k, h.1.1, h⟩⟩

/-- Events of `n` polls that find the line high, each followed by a wait of
`us` microseconds. -/
def failEvents (us : Int) (n : Nat) : List Event :=
  (List.replicate n [Event.dataIn, Event.dataRead true, Event.waitUs us]).flatten

/-- Number of calls of `wait_us` in a trace. -/
def sleeps (tr : List Event) : Nat :=
  tr.countP (fun e => match e with
    | Event.waitUs _ => true
    | _ => false)

/-- Level of the clock line after a trace: the level of the last write to the
clock pin, if there was one. -/
def clockLevel : List Event → Option Bool
  | [] => none
  | e :: tr =>
    match clockLevel tr with
    | some level => some level
    | none =>
      match e with
      | Event.sckWrite level => some level
      | _ => none

/-- Number of entries to the critical section in a trace. -/
def lockCount (tr : List Event) : Nat :=
  tr.count Event.lock

/-- Number of exits from the critical section in a trace. -/
def unlockCount (tr : List Event) : Nat :=
  tr.count Event.unlock

theorem xor_high_byte (v : Nat) (hv : v < 2 ^ 24) : v ^^^ 0xFF000000 = 2 ^ 24 * 255 + v := by
  apply Nat.eq_of_testBit_eq
  intro j
  have h255 : (0xFF000000 : Nat) = 2 ^ 24 * 255 := by norm_num
  rw [Nat.testBit_xor, h255, Nat.testBit_mul_pow_two_add 255 hv j, Nat.testBit_mul_pow_two]
  by_cases hj : j < 24
  · have hj2 : ¬ (24 ≤ j) := by omega
    simp [hj, hj2]
  · have hle : 2 ^ 24 ≤ 2 ^ j := Nat.pow_le_pow_right (by norm_num) (by omega)
    have hz : v.testBit j = false := Nat.testBit_lt_two_pow (lt_of_lt_of_le hv hle)
    have hj2 : 24 ≤ j := by omega
    simp [hj, hz, hj2]

theorem and_bit23 (v : Nat) : v &&& 0x800000 = (v.testBit 23).toNat * 2 ^ 23 := by
  have h : (0x800000 : Nat) = 2 ^ 23 := by norm_num
  rw [h, Nat.and_two_pow]

theorem testBit23_iff (v : Nat) (hv : v < 2 ^ 24) : v.testBit 23 = true ↔ 2 ^ 23 ≤ v := by
  rw [Nat.testBit_to_div_mod]
  simp only [decide_eq_true_eq]
  omega

/-! ## The loops of `read` -/

theorem wrapInt32_of_range (x : Int) (h1 : -2 ^ 31 ≤ x) (h2 : x < 2 ^ 31) : wrapInt32 x = x := by
  unfold wrapInt32
  omega

theorem gainPulses_eq (n : Nat) (st : State F) :
    gainPulses n st = { st with trace := st.trace ++ gainEvents n } := by
  induction n generalizing st with
  | zero => simp [gainPulses, gainEvents]
  | succ n ih =>
    rw [gainPulses, ih]
    simp [State.emit, gainEvents, List.replicate_succ]

theorem bitEvents_succ (pin : Nat → Bool) (q n : Nat) :
    bitEvents pin q (n + 1) =
      [Event.sckWrite true, Event.dataRead (pin q), Event.sckWrite false] ++
        bitEvents pin (q + 1) n := by
  simp [bitEvents, List.range_succ_eq_map, List.flatMap_map, Nat.add_assoc, Nat.add_comm 1]

theorem clockBits_snd (pin : Nat → Bool) (n buffer : Nat) (st : State F) :
    (clockBits pin n buffer st).2 =
      { st with samples := st.samples + n, trace := st.trace ++ bitEvents pin st.samples n } := by
  induction n generalizing buffer st with
  | zero => simp [clockBits, bitEvents]
  | succ n ih =>
    rw [clockBits]
    simp only [State.sample, State.emit]
    rw [ih, bitEvents_succ]
    simp [Nat.add_assoc, Nat.add_comm 1]

theorem clockBits_fst (pin : Nat → Bool) (n buffer : Nat) (st : State F)
    (h : (buffer + 1) * 2 ^ n ≤ 2 ^ 32) :
    (clockBits pin n buffer st).1 =
      buffer * 2 ^ n + ∑ i in Finset.range n, (pin (st.samples + (n - 1 - i))).toNat * 2 ^ i := by
  induction n generalizing buffer st with
  | zero => simp [clockBits]
  | succ n ih =>
    have hpos : 0 < 2 ^ n := Nat.pow_pos (by norm_num)
    have hb : pin st.samples = true ∨ pin st.samples = false := by
      cases pin st.samples <;> simp
    have hlt : buffer * 2 + 1 < 2 ^ 32 := by
      have h2 : (buffer + 1) * 2 * 2 ^ n ≤ 2 ^ 32 := by
        rw [pow_succ] at h; nlinarith
      nlinarith
    rw [clockBits]
    simp only [State.sample, State.emit, Nat.shiftLeft_eq, pow_one]
    rw [ih]
    · rw [Finset.sum_range_succ]
      have hs : ∀ i ∈ Finset.range n,
          (pin (st.samples + 1 + (n - 1 - i))).toNat * 2 ^ i =
            (pin (st.samples + (n + 1 - 1 - i))).toNat * 2 ^ i := by
        intro i hi
        have : i < n := Finset.mem_range.mp hi
        have e : st.samples + 1 + (n - 1 - i) = st.samples + (n + 1 - 1 - i) := by omega
        rw [e]
      rw [Finset.sum_congr rfl hs]
      have e0 : st.samples + (n + 1 - 1 - n) = st.samples := by omega
      rw [e0]
      rcases hb with hb | hb
      · simp only [hb, if_true, Bool.toNat_true]
        rw [Nat.mod_eq_of_lt (by omega), Nat.mod_eq_of_lt (by omega), pow_succ]
        ring
      · simp only [hb, Bool.false_eq_true, if_false, Bool.toNat_false]
        rw [Nat.mod_eq_of_lt (by omega), pow_succ]
        ring
    · rcases hb with hb | hb
      · simp only [hb, if_true]
        rw [Nat.mod_eq_of_lt (by omega), Nat.mod_eq_of_lt (by omega)]
        rw [pow_succ] at h
        nlinarith
      · simp only [hb, Bool.false_eq_true, if_false]
        rw [Nat.mod_eq_of_lt (by omega)]
        rw [pow_succ] at h
        nlinarith

theorem clockBits_24 (pin : Nat → Bool) (st : State F) :
    (clockBits pin 24 0 st).1 = msbFirst pin st.samples := by
  rw [clockBits_fst pin 24 0 st (by norm_num)]
  simp [msbFirst]

theorem msbFirst_lt (pin : Nat → Bool) (q : Nat) : msbFirst pin q < 2 ^ 24 := by
  unfold msbFirst
  have h : ∀ b : Bool, b.toNat ≤ 1 := by intro b; cases b <;> simp
  simp only [Finset.sum_range_succ, Finset.sum_range_zero]
  have := h (pin (q + (23 - 0)))
  have := h (pin (q + (23 - 1)))
  have := h (pin (q + (23 - 2)))
  have := h (pin (q + (23 - 3)))
  have := h (pin (q + (23 - 4)))
  have := h (pin (q + (23 - 5)))
  have := h (pin (q + (23 - 6)))
  have := h (pin (q + (23 - 7)))
  have := h (pin (q + (23 - 8)))
  have := h (pin (q + (23 - 9)))
  have := h (pin (q + (23 - 10)))
  have := h (pin (q + (23 - 11)))
  have := h (pin (q + (23 - 12)))
  have := h (pin (q + (23 - 13)))
  have := h (pin (q + (23 - 14)))
  have := h (pin (q + (23 - 15)))
  have := h (pin (q + (23 - 16)))
  have := h (pin (q + (23 - 17)))
  have := h (pin (q + (23 - 18)))
  have := h (pin (q + (23 - 19)))
  have := h (pin (q + (23 - 20)))
  have := h (pin (q + (23 - 21)))
  have := h (pin (q + (23 - 22)))
  have := h (pin (q + (23 - 23)))
  omega

/-! ## Polling and one conversion -/

theorem waitReady_eq (pin : Nat → Bool) (fuel k : Nat) (delay_ms : Int) (st : State F)
    (h : ReadyAt pin fuel st.samples k) :
    waitReady pin fuel delay_ms st =
      Except.ok ((), { st with
        samples := st.samples + k + 1,
        trace := st.trace ++ pollEvents (wrapInt32 (delay_ms * 1000)) k }) := by
  induction k generalizing fuel st with
  | zero =>
    obtain ⟨hk, _, hlow⟩ := h
    obtain ⟨f, rfl⟩ : ∃ f, fuel = f + 1 := ⟨fuel - 1, by omega⟩
    simp only [Nat.add_zero] at hlow
    simp [waitReady, isReady, State.sample, State.emit, hlow, pollEvents]
  | succ k ih =>
    obtain ⟨hk, hhigh, hlow⟩ := h
    obtain ⟨f, rfl⟩ : ∃ f, fuel = f + 1 := ⟨fuel - 1, by omega⟩
    have h0 : pin st.samples = true := by simpa using hhigh 0 (by omega)
    rw [waitReady]
    simp only [isReady, State.sample, State.emit, h0]
    rw [if_pos (by decide), ih]
    · simp [pollEvents, List.replicate_succ, Nat.add_assoc, Nat.add_comm 1]
    · refine ⟨by omega, ?_, ?_⟩
      · intro j hj
        have := hhigh (j + 1) (by omega)
        simpa [Nat.add_assoc, Nat.add_comm 1] using this
      · simpa [Nat.add_assoc, Nat.add_comm 1] using hlow

theorem setSign_eq (v : Nat) (hv : v < 2 ^ 24) : toInt32 (setSign v) = signed24 v := by
  cases hb : v.testBit 23
  · have h1 : setSign v = v := by
      unfold setSign
      rw [and_bit23, hb]
      simp
    rw [h1]
    unfold signed24 toInt32
    have hlt : v < 2 ^ 23 := by
      by_contra hc
      have := (testBit23_iff v hv).mpr (by omega)
      rw [hb] at this
      exact Bool.noConfusion this
    rw [hb, Nat.mod_eq_of_lt (by omega), if_pos (by omega)]
    simp
  · have hge : 2 ^ 23 ≤ v := (testBit23_iff v hv).mp hb
    have h1 : setSign v = 2 ^ 24 * 255 + v := by
      unfold setSign
      rw [and_bit23, hb, if_pos (by norm_num), xor_high_byte v hv]
    rw [h1]
    unfold signed24 toInt32
    rw [hb, Nat.mod_eq_of_lt (by omega), if_neg (by omega)]
    simp only [if_true]
    push_cast
    omega

theorem read_eq (pin : Nat → Bool) (fuel k : Nat) (st : State F)
    (h : ReadyAt pin fuel st.samples k) :
    read pin fuel st =
      Except.ok (signed24 (msbFirst pin (st.samples + k + 1)), { st with
        samples := st.samples + k + 25,
        trace := st.trace ++ [Event.sckOut, Event.dataIn] ++ pollEvents 0 k ++ [Event.lock] ++
          bitEvents pin (st.samples + k + 1) 24 ++ gainEvents st._gain ++ [Event.unlock] }) := by
  have hw := waitReady_eq pin fuel k 0 ((st.emit Event.sckOut).emit Event.dataIn) h
  have hz : wrapInt32 (0 * 1000) = 0 := by decide
  rw [hz] at hw
  unfold read
  simp only [bind, Except.bind, pure, Except.pure, hw]
  have hc : ∀ (s : State F), clockBits pin 24 0 s = ((clockBits pin 24 0 s).1, (clockBits pin 24 0 s).2) :=
    fun s => rfl
  rw [hc]
  simp only [clockBits_24, clockBits_snd, gainPulses_eq, State.emit]
  rw [setSign_eq _ (msbFirst_lt _ _)]
  simp [Nat.add_assoc]

/-! ## Claims about one conversion -/

theorem bitEvents_clockPulses (pin : Nat → Bool) (q n : Nat) :
    clockPulses (bitEvents pin q n) = n := by
  induction n generalizing q with
  | zero => simp [bitEvents, clockPulses]
  | succ n ih =>
    have := ih (q + 1)
    rw [bitEvents_succ]
    simp only [clockPulses] at this ⊢
    simp [List.count_cons, this]

theorem bitEvents_clockFalls (pin : Nat → Bool) (q n : Nat) :
    clockFalls (bitEvents pin q n) = n := by
  induction n generalizing q with
  | zero => simp [bitEvents, clockFalls]
  | succ n ih =>
    have := ih (q + 1)
    rw [bitEvents_succ]
    simp only [clockFalls] at this ⊢
    simp [List.count_cons, this]

theorem bitEvents_dataSamples (pin : Nat → Bool) (q n : Nat) :
    dataSamples (bitEvents pin q n) = n := by
  induction n generalizing q with
  | zero => simp [bitEvents, dataSamples]
  | succ n ih =>
    have := ih (q + 1)
    rw [bitEvents_succ]
    simp only [dataSamples] at this ⊢
    simp [List.countP_cons, this]

theorem gainEvents_succ (g : Nat) :
    gainEvents (g + 1) = [Event.sckWrite true, Event.sckWrite false] ++ gainEvents g := by
  simp [gainEvents, List.replicate_succ]

theorem gainEvents_counts (g : Nat) :
    clockPulses (gainEvents g) = g ∧ clockFalls (gainEvents g) = g ∧
      dataSamples (gainEvents g) = 0 := by
  induction g with
  | zero => simp [gainEvents, clockPulses, clockFalls, dataSamples]
  | succ g ih =>
    obtain ⟨h1, h2, h3⟩ := ih
    rw [gainEvents_succ]
    simp only [clockPulses, clockFalls, dataSamples] at h1 h2 h3 ⊢
    simp [List.count_cons, List.countP_cons, h1, h2, h3]

theorem msbFirst_of_bits (pin : Nat → Bool) (q : Nat) (b : Nat → Bool)
    (hbits : ∀ j, j < 24 → pin (q + j) = b (23 - j)) :
    msbFirst pin q = ∑ i in Finset.range 24, (b i).toNat * 2 ^ i := by
  unfold msbFirst
  apply Finset.sum_congr rfl
  intro i hi
  have hi : i < 24 := Finset.mem_range.mp hi
  have := hbits (23 - i) (by omega)
  have e : 23 - (23 - i) = i := by omega
  rw [this, e]

/-- C1: when the data line becomes ready and then presents the 24 levels
`b 23, b 22, ..., b 0` in that order, the accumulator built by the clocking
loop of `read` is the sum of `b i * 2^i` (the first sampled bit is the most
significant), and `read` returns that 24-bit word read as a two's-complement
number. -/
theorem read_msb_first (pin : Nat → Bool) (fuel k : Nat) (st : State F) (b : Nat → Bool)
    (hready : ReadyAt pin fuel st.samples k)
    (hbits : ∀ j, j < 24 → pin (st.samples + k + 1 + j) = b (23 - j)) :
    (∀ s : State F, s.samples = st.samples + k + 1 →
        (clockBits pin 24 0 s).1 = ∑ i in Finset.range 24, (b i).toNat * 2 ^ i) ∧
      ∃ st', read pin fuel st =
        Except.ok (signed24 (∑ i in Finset.range 24, (b i).toNat * 2 ^ i), st') := by
  constructor
  · intro s hs
    rw [clockBits_24, hs, msbFirst_of_bits pin _ b hbits]
  · rw [read_eq pin fuel k st hready, msbFirst_of_bits pin _ b hbits]
    exact ⟨_, rfl⟩

/-- Witness of C1: a line that is ready at once and then transmits the word
300; `read` returns 300. -/
theorem read_msb_first_witness :
    (clockBits (script (false :: wordBits 300)) 24 0
        (((idle () 1).emit Event.sckOut).sample (script (false :: wordBits 300))).2).1 = 300 ∧
      ∃ st', read (script (false :: wordBits 300)) 1 (idle () 1) = Except.ok (300, st') := by
  have h := read_msb_first (script (false :: wordBits 300)) 1 0 (idle () 1)
    (fun i => Nat.testBit 300 i) ⟨by decide, by decide, by decide⟩ (by decide)
  have hw : (∑ i in Finset.range 24, (Nat.testBit 300 i).toNat * 2 ^ i) = 300 := by decide
  rw [hw] at h
  exact ⟨h.1 _ rfl, h.2⟩

/-- C2: for every 24-bit accumulator value `v`, the sign step of `read` yields
`v - 2^24`, a negative number, when bit 23 of `v` is set and `v` itself when
bit 23 is clear; the values 0x000000, 0x7FFFFF, 0x800000 and 0xFFFFFF yield
0, 8388607, -8388608 and -1. -/
theorem setSign_sign_extends :
    (∀ v : Nat, v < 2 ^ 24 → v.testBit 23 = true →
        toInt32 (setSign v) = (v : Int) - 2 ^ 24 ∧ toInt32 (setSign v) < 0) ∧
      (∀ v : Nat, v < 2 ^ 24 → v.testBit 23 = false → toInt32 (setSign v) = (v : Int)) ∧
      toInt32 (setSign 0x000000) = 0 ∧ toInt32 (setSign 0x7FFFFF) = 8388607 ∧
      toInt32 (setSign 0x800000) = -8388608 ∧ toInt32 (setSign 0xFFFFFF) = -1 := by
  refine ⟨?_, ?_, by decide, by decide, by decide, by decide⟩
  · intro v hv hb
    rw [setSign_eq v hv]
    unfold signed24
    rw [hb]
    simp only [if_true]
    constructor
    · trivial
    · have : (v : Int) < 2 ^ 24 := by exact_mod_cast hv
      omega
  · intro v hv hb
    rw [setSign_eq v hv]
    unfold signed24
    rw [hb]
    simp

/-- Witness of C2: the word 0xABCDEF has bit 23 set and is turned into
0xABCDEF - 2^24 = -5517841. -/
theorem setSign_sign_extends_witness : toInt32 (setSign 0xABCDEF) = -5517841 :=
  (setSign_sign_extends.1 0xABCDEF (by decide) (by decide)).1

theorem pollEvents_clockPulses (us : Int) (k : Nat) :
    clockPulses (pollEvents us k) = 0 ∧ clockFalls (pollEvents us k) = 0 := by
  induction k with
  | zero => simp [pollEvents, clockPulses, clockFalls]
  | succ k ih =>
    simp only [pollEvents, clockPulses, clockFalls, List.replicate_succ, List.flatten_cons,
      List.count_append, List.count_cons] at ih ⊢
    simpa using ih

/-- C3: one `read` on a device that becomes ready emits no clock pulse while
it polls, then, inside the critical section, exactly 24 clock pulses (high
then low) that each sample the data line once, followed by exactly `_gain`
clock pulses without a sample; for a stored pulse count of 1, 2 or 3 the call
emits 25, 26 or 27 clock pulses in all, and takes 24 data samples while
clocking. -/
theorem read_pulse_count (pin : Nat → Bool) (fuel k : Nat) (st : State F)
    (hready : ReadyAt pin fuel st.samples k)
    (hg : st._gain = 1 ∨ st._gain = 2 ∨ st._gain = 3) :
    ∃ v st', read pin fuel st = Except.ok (v, st') ∧
      st'.trace = st.trace ++ ([Event.sckOut, Event.dataIn] ++ pollEvents 0 k ++ [Event.lock] ++
        bitEvents pin (st.samples + k + 1) 24 ++ gainEvents st._gain ++ [Event.unlock]) ∧
      clockPulses (bitEvents pin (st.samples + k + 1) 24) = 24 ∧
      clockFalls (bitEvents pin (st.samples + k + 1) 24) = 24 ∧
      dataSamples (bitEvents pin (st.samples + k + 1) 24) = 24 ∧
      clockPulses (gainEvents st._gain) = st._gain ∧
      clockFalls (gainEvents st._gain) = st._gain ∧
      dataSamples (gainEvents st._gain) = 0 ∧
      dataSamples (bitEvents pin (st.samples + k + 1) 24 ++ gainEvents st._gain) = 24 ∧
      clockPulses ([Event.sckOut, Event.dataIn] ++ pollEvents 0 k ++ [Event.lock] ++
        bitEvents pin (st.samples + k + 1) 24 ++ gainEvents st._gain ++ [Event.unlock]) =
          24 + st._gain ∧
      (24 + st._gain = 25 ∨ 24 + st._gain = 26 ∨ 24 + st._gain = 27) := by
  obtain ⟨g1, g2, g3⟩ := gainEvents_counts st._gain
  obtain ⟨p1, _⟩ := pollEvents_clockPulses 0 k
  have b1 := bitEvents_clockPulses pin (st.samples + k + 1) 24
  have b2 := bitEvents_clockFalls pin (st.samples + k + 1) 24
  have b3 := bitEvents_dataSamples pin (st.samples + k + 1) 24
  have t1 : clockPulses ([Event.sckOut, Event.dataIn] ++ pollEvents 0 k ++ [Event.lock] ++
      bitEvents pin (st.samples + k + 1) 24 ++ gainEvents st._gain ++ [Event.unlock]) =
        24 + st._gain := by
    simp only [clockPulses, List.count_append] at b1 g1 p1 ⊢
    rw [b1, g1, p1]
    simp [List.count_cons]
  have t2 : dataSamples (bitEvents pin (st.samples + k + 1) 24 ++ gainEvents st._gain) = 24 := by
    simp only [dataSamples, List.countP_append] at b3 g3 ⊢
    rw [b3, g3]
  refine ⟨_, _, read_eq pin fuel k st hready, ?_, b1, b2, b3, g1, g2, g3, t2, t1, ?_⟩
  · simp
  · omega

/-- Witness of C3: with a stored pulse count of 3, a `read` of the word 300 on
a line that is ready at the first poll succeeds and its trace holds 27 clock
pulses. -/
theorem read_pulse_count_witness :
    ∃ v st', read (script (false :: wordBits 300)) 1 (idle () 3) = Except.ok (v, st') ∧
      clockPulses st'.trace = 27 := by
  obtain ⟨v, st', h1, h2, _, _, _, _, _, _, _, h3, _⟩ :=
    read_pulse_count (script (false :: wordBits 300)) 1 0 (idle () 3)
      ⟨by decide, by decide, by decide⟩ (Or.inr (Or.inr rfl))
  refine ⟨v, st', h1, ?_⟩
  rw [h2]
  simpa [idle] using h3

/-! ## Gain selection -/

theorem setGain_eq (pin : Nat → Bool) (fuel k gain : Nat) (st : State F)
    (h : ReadyAt pin fuel st.samples k) :
    setGain pin fuel gain st =
      Except.ok ((), { st with
        _gain := gainCode (toUint8 gain) st._gain,
        samples := st.samples + k + 25,
        trace := st.trace ++ [Event.sckOut, Event.sckWrite false] ++
          ([Event.sckOut, Event.dataIn] ++ pollEvents 0 k ++ [Event.lock] ++
            bitEvents pin (st.samples + k + 1) 24 ++
            gainEvents (gainCode (toUint8 gain) st._gain) ++ [Event.unlock]) }) := by
  have hm : (match toUint8 gain with
      | 128 => { st with _gain := 1 }
      | 64 => { st with _gain := 3 }
      | 32 => { st with _gain := 2 }
      | _ => st) = { st with _gain := gainCode (toUint8 gain) st._gain } := by
    split
    · next h1 => simp [gainCode, h1]
    · next h1 => simp [gainCode, h1]
    · next h1 => simp [gainCode, h1]
    · next h1 h2 h3 => simp only [gainCode, if_neg h1, if_neg h2, if_neg h3]
  unfold setGain
  simp only [hm, bind, Except.bind, pure, Except.pure]
  rw [read_eq pin fuel k _ (by simpa [State.emit] using h)]
  simp [State.emit]

/-- C4: on a device that becomes ready, `setGain` returns and has stored the
pulse count 1 for the gain value 128, 3 for 64 and 2 for 32, whatever the
stored pulse count was before. -/
theorem setGain_maps (pin : Nat → Bool) (fuel k : Nat) (st : State F)
    (hready : ReadyAt pin fuel st.samples k) :
    (∃ st', setGain pin fuel 128 st = Except.ok ((), st') ∧ st'._gain = 1) ∧
      (∃ st', setGain pin fuel 64 st = Except.ok ((), st') ∧ st'._gain = 3) ∧
      (∃ st', setGain pin fuel 32 st = Except.ok ((), st') ∧ st'._gain = 2) := by
  refine ⟨⟨_, setGain_eq pin fuel k 128 st hready, ?_⟩,
    ⟨_, setGain_eq pin fuel k 64 st hready, ?_⟩, ⟨_, setGain_eq pin fuel k 32 st hready, ?_⟩⟩ <;>
  simp [gainCode, toUint8]

/-- Witness of C4: from a stored pulse count of 2, on a line that is ready at
the second poll, the three gain values give 1, 3 and 2. -/
theorem setGain_maps_witness :
    (∃ st', setGain (script (true :: false :: wordBits 5)) 2 128 (idle () 2) =
        Except.ok ((), st') ∧ st'._gain = 1) ∧
      (∃ st', setGain (script (true :: false :: wordBits 5)) 2 64 (idle () 2) =
        Except.ok ((), st') ∧ st'._gain = 3) ∧
      (∃ st', setGain (script (true :: false :: wordBits 5)) 2 32 (idle () 2) =
        Except.ok ((), st') ∧ st'._gain = 2) :=
  setGain_maps (script (true :: false :: wordBits 5)) 2 1 (idle () 2)
    ⟨by decide, by decide, by decide⟩

/-- C5, as amended: for every requested gain value that reaches the `uint8_t`
parameter as a value other than 128, 64 and 32 (the parameter receives the
requested value modulo 256), `setGain` on a device that becomes ready returns
and leaves the stored pulse count as it was; in particular `setGain(128)`
followed by `setGain(999)` leaves the stored pulse count at 1. -/
theorem setGain_invalid_keeps :
    (∀ (pin : Nat → Bool) (fuel k gain : Nat) (st : State F),
        ReadyAt pin fuel st.samples k →
        gain % 256 ≠ 128 → gain % 256 ≠ 64 → gain % 256 ≠ 32 →
        ∃ st', setGain pin fuel gain st = Except.ok ((), st') ∧ st'._gain = st._gain) ∧
      (∀ (pin : Nat → Bool) (fuel k k2 : Nat) (st : State F),
        ReadyAt pin fuel st.samples k → ReadyAt pin fuel (st.samples + k + 25) k2 →
        ∃ st1 st2, setGain pin fuel 128 st = Except.ok ((), st1) ∧
          setGain pin fuel 999 st1 = Except.ok ((), st2) ∧
          st1._gain = 1 ∧ st2._gain = 1) := by
  constructor
  · intro pin fuel k gain st hready h128 h64 h32
    refine ⟨_, setGain_eq pin fuel k gain st hready, ?_⟩
    have : toUint8 gain = gain % 256 := rfl
    simp [gainCode, this, h128, h64, h32]
  · intro pin fuel k k2 st hready h2
    refine ⟨_, _, setGain_eq pin fuel k 128 st hready, setGain_eq pin fuel k2 999 _ h2, ?_, ?_⟩ <;>
    simp [gainCode, toUint8]

/-- Witness of C5: from a stored pulse count of 3 the requested gain values 0
and 999 keep 3, and on a line that is always low `setGain(128)` then
`setGain(999)` ends with the stored pulse count 1. -/
theorem setGain_invalid_keeps_witness :
    (∃ st', setGain (fun _ => false) 1 0 (idle () 3) = Except.ok ((), st') ∧ st'._gain = 3) ∧
      (∃ st', setGain (fun _ => false) 1 999 (idle () 3) = Except.ok ((), st') ∧
        st'._gain = 3) ∧
      ∃ st1 st2, setGain (fun _ => false) 1 128 (idle () 3) = Except.ok ((), st1) ∧
        setGain (fun _ => false) 1 999 st1 = Except.ok ((), st2) ∧
        st1._gain = 1 ∧ st2._gain = 1 :=
  ⟨(@setGain_invalid_keeps Unit).1 (fun _ => false) 1 0 0 (idle () 3)
      ⟨by decide, by decide, rfl⟩ (by decide) (by decide) (by decide),
    (@setGain_invalid_keeps Unit).1 (fun _ => false) 1 0 999 (idle () 3)
      ⟨by decide, by decide, rfl⟩ (by decide) (by decide) (by decide),
    (@setGain_invalid_keeps Unit).2 (fun _ => false) 1 0 0 (idle () 3)
      ⟨by decide, by decide, rfl⟩ ⟨by decide, by decide, rfl⟩⟩

/-- C5 fails as it is stated: the requested gain value 384 is none of 128, 64
and 32, yet `setGain(384)` changes the stored pulse count from 2 to 1, because
the `uint8_t` parameter receives 384 as 128. -/
theorem setGain_384_changes :
    (384 : Nat) ≠ 128 ∧ (384 : Nat) ≠ 64 ∧ (384 : Nat) ≠ 32 ∧
      (idle () 2)._gain = 2 ∧
      ∃ st', setGain (fun _ => false) 1 384 (idle () 2) = Except.ok ((), st') ∧
        st'._gain = 1 ∧ st'._gain ≠ (idle () 2)._gain := by
  refine ⟨by decide, by decide, by decide, rfl, _,
    setGain_eq (fun _ => false) 1 0 384 (idle () 2) ⟨by decide, by decide, rfl⟩, ?_, ?_⟩ <;>
  simp [gainCode, toUint8, idle]

/-! ## When a conversion returns -/

theorem waitReady_ok_inv (pin : Nat → Bool) (fuel : Nat) (delay_ms : Int) (st st' : State F)
    (h : waitReady pin fuel delay_ms st = Except.ok ((), st')) :
    ∃ k, ReadyAt pin fuel st.samples k := by
  induction fuel generalizing st with
  | zero => simp [waitReady] at h
  | succ f ih =>
    cases hp : pin st.samples with
    | false => exact ⟨0, by omega, fun j hj => absurd hj (by omega), by simpa using hp⟩
    | true =>
      rw [waitReady] at h
      simp only [isReady, State.sample, State.emit, hp] at h
      rw [if_pos (by decide)] at h
      obtain ⟨k, hk, hhigh, hlow⟩ := ih _ h
      simp only at hhigh hlow
      refine ⟨k + 1, by omega, ?_, ?_⟩
      · intro j hj
        cases j with
        | zero => simpa using hp
        | succ j =>
          have := hhigh j (by omega)
          simpa [Nat.add_assoc, Nat.add_comm 1] using this
      · simpa [Nat.add_assoc, Nat.add_comm 1] using hlow

theorem read_ok_inv (pin : Nat → Bool) (fuel : Nat) (st : State F) (r : Int × State F)
    (h : read pin fuel st = Except.ok r) :
    ∃ k, ReadyAt pin fuel st.samples k := by
  unfold read at h
  cases hw : waitReady pin fuel 0 ((st.emit Event.sckOut).emit Event.dataIn) with
  | error e => simp [hw, bind, Except.bind] at h
  | ok p =>
    obtain ⟨u, s⟩ := p
    have := waitReady_ok_inv pin fuel 0 _ s hw
    simpa [State.emit] using this

/-! ## Averaging -/

theorem signed24_range (v : Nat) (hv : v < 2 ^ 24) :
    -(2 ^ 23) ≤ signed24 v ∧ signed24 v < 2 ^ 23 := by
  unfold signed24
  cases hb : v.testBit 23
  · have hlt : v < 2 ^ 23 := by
      by_contra hc
      have := (testBit23_iff v hv).mpr (by omega)
      rw [hb] at this
      exact Bool.noConfusion this
    simp only [Bool.false_eq_true, if_false]
    omega
  · have hge : 2 ^ 23 ≤ v := (testBit23_iff v hv).mp hb
    simp only [if_true]
    omega

theorem read_ok_range (pin : Nat → Bool) (fuel : Nat) (st : State F) (v : Int) (st' : State F)
    (h : read pin fuel st = Except.ok (v, st')) :
    -(2 ^ 23) ≤ v ∧ v < 2 ^ 23 ∧
      st'._offset = st._offset ∧ st'._scale = st._scale ∧ st'._gain = st._gain := by
  obtain ⟨k, hk⟩ := read_ok_inv pin fuel st _ h
  rw [read_eq pin fuel k st hk] at h
  simp only [Except.ok.injEq, Prod.mk.injEq] at h
  obtain ⟨hv, hs⟩ := h
  subst hs
  have := signed24_range _ (msbFirst_lt pin (st.samples + k + 1))
  rw [hv] at this
  exact ⟨this.1, this.2, rfl, rfl, rfl⟩

theorem sumReads_eq (pin : Nat → Bool) (fuel n : Nat) (sum : Int) (st : State F)
    (hlo : -(2 ^ 31) ≤ sum - n * 2 ^ 23) (hhi : sum + n * 2 ^ 23 ≤ 2 ^ 31) :
    sumReads pin fuel n sum st =
      (readMany pin fuel n st).map (fun r => (sum + r.1.sum, r.2)) := by
  induction n generalizing sum st with
  | zero => simp [sumReads, readMany, Except.map]
  | succ n ih =>
    rw [sumReads, readMany]
    cases hr : read pin fuel st with
    | error e => simp [bind, Except.bind, Except.map]
    | ok p =>
      obtain ⟨v, s1⟩ := p
      obtain ⟨h1, h2, _⟩ := read_ok_range pin fuel st v s1 hr
      have hw : wrapInt32 (sum + v) = sum + v := by
        apply wrapInt32_of_range <;> push_cast at hlo hhi <;> omega
      simp only [bind, Except.bind, hw]
      rw [ih (sum + v) s1 (by push_cast at hlo hhi ⊢; omega) (by push_cast at hlo hhi ⊢; omega)]
      cases readMany pin fuel n s1 with
      | error e => simp [Except.map]
      | ok q => simp [Except.map, pure, Except.pure, Int.add_assoc]

theorem readAverage_eq (pin : Nat → Bool) (fuel times : Nat) (st : State F)
    (h1 : 1 ≤ times) (h2 : times < 256) :
    readAverage pin fuel times st =
      (readMany pin fuel times st).map (fun r => (Int.tdiv r.1.sum (times : Int), r.2)) := by
  have ht : toUint8 times = times := Nat.mod_eq_of_lt h2
  unfold readAverage
  simp only [ht]
  rw [sumReads_eq pin fuel times 0 st (by push_cast; omega) (by push_cast; omega)]
  cases readMany pin fuel times st with
  | error e => simp [bind, Except.bind, Except.map]
  | ok q => simp [bind, Except.bind, Except.map, pure, Except.pure]

theorem readMany_ok (pin : Nat → Bool) (fuel n : Nat) (st : State F)
    (h : ReadsReady pin fuel n st.samples) :
    ∃ vs st', readMany pin fuel n st = Except.ok (vs, st') ∧ vs.length = n ∧
      (∀ v ∈ vs, -(2 ^ 23) ≤ v ∧ v < 2 ^ 23) ∧
      st'._offset = st._offset ∧ st'._scale = st._scale ∧ st'._gain = st._gain := by
  induction n generalizing st with
  | zero => exact ⟨[], st, rfl, rfl, by simp, rfl, rfl, rfl⟩
  | succ n ih =>
    obtain ⟨k, hk, hrest⟩ := h
    have hr := read_eq pin fuel k st hk
    obtain ⟨vs, st', hm, hl, hb, f1, f2, f3⟩ := ih { st with
      samples := st.samples + k + 25,
      trace := st.trace ++ [Event.sckOut, Event.dataIn] ++ pollEvents 0 k ++ [Event.lock] ++
        bitEvents pin (st.samples + k + 1) 24 ++ gainEvents st._gain ++ [Event.unlock] } hrest
    refine ⟨signed24 (msbFirst pin (st.samples + k + 1)) :: vs, st', ?_, by simp [hl], ?_,
      f1, f2, f3⟩
    · rw [readMany]
      simp only [bind, Except.bind, hr, hm, pure, Except.pure]
    · intro v hv
      rcases List.mem_cons.mp hv with rfl | hv
      · exact signed24_range _ (msbFirst_lt pin _)
      · exact hb v hv

theorem readsReady_cyclic (w : List Bool) (hw : w.length = 24) (n p : Nat) (hp : p % 25 = 0) :
    ReadsReady (cyclic (false :: w)) 1 n p := by
  induction n generalizing p with
  | zero => trivial
  | succ n ih =>
    refine ⟨0, ⟨by omega, fun j hj => absurd hj (by omega), ?_⟩, ih _ (by omega)⟩
    simp [cyclic, hw, hp]

theorem readAverage_ok (pin : Nat → Bool) (fuel times : Nat) (st : State F)
    (h1 : 1 ≤ times) (h2 : times < 256) (hready : ReadsReady pin fuel times st.samples) :
    ∃ vs st', readMany pin fuel times st = Except.ok (vs, st') ∧ vs.length = times ∧
      (∀ v ∈ vs, -(2 ^ 23) ≤ v ∧ v < 2 ^ 23) ∧
      readAverage pin fuel times st = Except.ok (Int.tdiv vs.sum (times : Int), st') ∧
      st'._offset = st._offset ∧ st'._scale = st._scale ∧ st'._gain = st._gain := by
  obtain ⟨vs, st', hm, hl, hb, hf⟩ := readMany_ok pin fuel times st hready
  refine ⟨vs, st', hm, hl, hb, ?_, hf⟩
  rw [readAverage_eq pin fuel times st h1 h2, hm]
  rfl

/-- C7: for every `times` from 1 to 255 and every data line on which each of
the `times` conversions finds the line low, `readAverage(times)` performs
exactly the `times` sequential `read()` conversions (it ends in the state in
which they end) and returns the sum of their `times` raw samples divided by
`times`, the quotient being truncated toward zero. -/
theorem readAverage_is_mean (pin : Nat → Bool) (fuel times : Nat) (st : State F)
    (h1 : 1 ≤ times) (h2 : times < 256) (hready : ReadsReady pin fuel times st.samples) :
    ∃ vs st', readMany pin fuel times st = Except.ok (vs, st') ∧ vs.length = times ∧
      readAverage pin fuel times st = Except.ok (Int.tdiv vs.sum (times : Int), st') := by
  obtain ⟨vs, st', hm, hl, _, hr, _⟩ := readAverage_ok pin fuel times st h1 h2 hready
  exact ⟨vs, st', hm, hl, hr⟩

/-- Witness of C7: on a line that transmits the word 300 again and again,
`readAverage` of 1, 10 and 100 conversions returns the truncated mean of the
samples read. -/
theorem readAverage_is_mean_witness :
    (∃ vs st', readMany (cyclic (false :: wordBits 300)) 1 1 (idle () 1) = Except.ok (vs, st') ∧
        vs.length = 1 ∧
        readAverage (cyclic (false :: wordBits 300)) 1 1 (idle () 1) =
          Except.ok (Int.tdiv vs.sum ((1 : Nat) : Int), st')) ∧
      (∃ vs st', readMany (cyclic (false :: wordBits 300)) 1 10 (idle () 1) = Except.ok (vs, st') ∧
        vs.length = 10 ∧
        readAverage (cyclic (false :: wordBits 300)) 1 10 (idle () 1) =
          Except.ok (Int.tdiv vs.sum ((10 : Nat) : Int), st')) ∧
      ∃ vs st', readMany (cyclic (false :: wordBits 300)) 1 100 (idle () 1) = Except.ok (vs, st') ∧
        vs.length = 100 ∧
        readAverage (cyclic (false :: wordBits 300)) 1 100 (idle () 1) =
          Except.ok (Int.tdiv vs.sum ((100 : Nat) : Int), st') :=
  ⟨readAverage_is_mean _ 1 1 (idle () 1) (by decide) (by decide)
      (readsReady_cyclic (wordBits 300) rfl 1 0 rfl),
    readAverage_is_mean _ 1 10 (idle () 1) (by decide) (by decide)
      (readsReady_cyclic (wordBits 300) rfl 10 0 rfl),
    readAverage_is_mean _ 1 100 (idle () 1) (by decide) (by decide)
      (readsReady_cyclic (wordBits 300) rfl 100 0 rfl)⟩

/-- The division of `readAverage` truncates toward zero: the samples -1 and -2
have the sum -3 and the average -1. -/
theorem readAverage_truncates_example :
    (readMany (script (false :: wordBits 0xFFFFFF ++ false :: wordBits 0xFFFFFE)) 1 2
        (idle () 1)).map Prod.fst = Except.ok [-1, -2] ∧
      (readAverage (script (false :: wordBits 0xFFFFFF ++ false :: wordBits 0xFFFFFE)) 1 2
        (idle () 1)).map Prod.fst = Except.ok (-1) :=
  ⟨rfl, rfl⟩

/-! ## The stored pulse count -/

theorem sumReads_frame (pin : Nat → Bool) (fuel n : Nat) (sum : Int) (st : State F)
    (v : Int) (st' : State F) (h : sumReads pin fuel n sum st = Except.ok (v, st')) :
    st'._offset = st._offset ∧ st'._scale = st._scale ∧ st'._gain = st._gain := by
  induction n generalizing sum st with
  | zero =>
    simp only [sumReads, Except.ok.injEq, Prod.mk.injEq] at h
    obtain ⟨_, rfl⟩ := h
    exact ⟨rfl, rfl, rfl⟩
  | succ n ih =>
    rw [sumReads] at h
    cases hr : read pin fuel st with
    | error e => simp [hr, bind, Except.bind] at h
    | ok p =>
      obtain ⟨x, s1⟩ := p
      obtain ⟨_, _, f1, f2, f3⟩ := read_ok_range pin fuel st x s1 hr
      simp only [hr, bind, Except.bind] at h
      obtain ⟨g1, g2, g3⟩ := ih _ _ h
      exact ⟨g1.trans f1, g2.trans f2, g3.trans f3⟩

theorem readAverage_frame (pin : Nat → Bool) (fuel times : Nat) (st : State F)
    (v : Int) (st' : State F) (h : readAverage pin fuel times st = Except.ok (v, st')) :
    st'._offset = st._offset ∧ st'._scale = st._scale ∧ st'._gain = st._gain := by
  unfold readAverage at h
  cases hs : sumReads pin fuel (toUint8 times) 0 st with
  | error e => simp [hs, bind, Except.bind] at h
  | ok p =>
    obtain ⟨x, s1⟩ := p
    simp only [hs, bind, Except.bind, pure, Except.pure, Except.ok.injEq, Prod.mk.injEq] at h
    obtain ⟨_, rfl⟩ := h
    exact sumReads_frame pin fuel _ 0 st x s1 hs

theorem setGain_ok_inv (pin : Nat → Bool) (fuel gain : Nat) (st st' : State F)
    (h : setGain pin fuel gain st = Except.ok ((), st')) :
    st'._gain = gainCode (toUint8 gain) st._gain ∧
      st'._offset = st._offset ∧ st'._scale = st._scale := by
  have hk : ∃ k, ReadyAt pin fuel st.samples k := by
    unfold setGain at h
    simp only [bind, Except.bind] at h
    split at h
    · simp at h
    · next r hr =>
      have := read_ok_inv pin fuel _ r hr
      simp only [State.emit] at this
      split at this <;> exact this
  obtain ⟨k, hk⟩ := hk
  rw [setGain_eq pin fuel k gain st hk] at h
  simp only [Except.ok.injEq, Prod.mk.injEq, true_and] at h
  subst h
  exact ⟨rfl, rfl, rfl⟩

theorem gainCode_ok (gainValue prior : Nat)
    (h : (prior = 1 ∨ prior = 2 ∨ prior = 3) ∨ gainValue = 128 ∨ gainValue = 64 ∨ gainValue = 32) :
    gainCode gainValue prior = 1 ∨ gainCode gainValue prior = 2 ∨ gainCode gainValue prior = 3 := by
  unfold gainCode
  split
  · exact Or.inl rfl
  · split
    · exact Or.inr (Or.inr rfl)
    · split
      · exact Or.inr (Or.inl rfl)
      · rcases h with h | h | h | h
        · exact h
        · contradiction
        · contradiction
        · contradiction

theorem run_gainOk {D : Type} (fp : FloatOps F D) (pin : Nat → Bool) (fuel : Nat) (op : Op F)
    (st st' : State F) (hinv : GainOk st) (h : op.run fp pin fuel st = Except.ok st') :
    GainOk st' := by
  unfold GainOk at hinv ⊢
  cases op with
  | setGain gain =>
    simp only [Op.run] at h
    cases hr : setGain pin fuel gain st with
    | error e => simp [hr, Except.map] at h
    | ok p =>
      obtain ⟨u, s⟩ := p
      simp only [hr, Except.map, Except.ok.injEq] at h
      subst h
      rw [(setGain_ok_inv pin fuel gain st s hr).1]
      exact gainCode_ok _ _ (Or.inl hinv)
  | read =>
    simp only [Op.run] at h
    cases hr : read pin fuel st with
    | error e => simp [hr, Except.map] at h
    | ok p =>
      obtain ⟨v, s⟩ := p
      simp only [hr, Except.map, Except.ok.injEq] at h
      subst h
      rw [(read_ok_range pin fuel st v s hr).2.2.2.2]
      exact hinv
  | readAverage times =>
    simp only [Op.run] at h
    cases hr : readAverage pin fuel times st with
    | error e => simp [hr, Except.map] at h
    | ok p =>
      obtain ⟨v, s⟩ := p
      simp only [hr, Except.map, Except.ok.injEq] at h
      subst h
      rw [(readAverage_frame pin fuel times st v s hr).2.2]
      exact hinv
  | tare times =>
    simp only [Op.run, tare] at h
    cases hr : readAverage pin fuel times st with
    | error e => simp [hr, Except.map, bind, Except.bind] at h
    | ok p =>
      obtain ⟨v, s⟩ := p
      simp only [hr, Except.map, bind, Except.bind, pure, Except.pure, Except.ok.injEq] at h
      subst h
      simp only [setOffset]
      rw [(readAverage_frame pin fuel times st v s hr).2.2]
      exact hinv
  | getUnits times =>
    simp only [Op.run, getUnits] at h
    cases hr : readAverage pin fuel times st with
    | error e => simp [hr, Except.map, bind, Except.bind] at h
    | ok p =>
      obtain ⟨v, s⟩ := p
      simp only [hr, Except.map, bind, Except.bind, pure, Except.pure, Except.ok.injEq] at h
      subst h
      rw [(readAverage_frame pin fuel times st v s hr).2.2]
      exact hinv
  | setOffset offset =>
    simp only [Op.run, Except.ok.injEq] at h
    subst h
    exact hinv
  | setScale scale =>
    simp only [Op.run, Except.ok.injEq] at h
    subst h
    exact hinv
  | powerDown =>
    simp only [Op.run, Except.ok.injEq] at h
    subst h
    exact hinv
  | powerUp =>
    simp only [Op.run, Except.ok.injEq] at h
    subst h
    exact hinv

/-- The part of the invariant that the code keeps: after a construction with
one of the gain values 128, 64, 32 the stored pulse count is 1, 2 or 3, and it
stays so after every sequence of public operations that return. -/
theorem gainOk_of_valid_construction {D : Type} (fp : FloatOps F D) (pin : Nat → Bool)
    (fuel uninit gain samples : Nat) (trace : List Event) (ops : List (Op F)) (st0 st : State F)
    (hgain : gain = 128 ∨ gain = 64 ∨ gain = 32)
    (hnew : HX711 fp pin fuel uninit gain samples trace = Except.ok ((), st0))
    (hrun : runAll fp pin fuel ops st0 = Except.ok st) :
    GainOk st0 ∧ GainOk st := by
  have h0 : GainOk st0 := by
    unfold HX711 at hnew
    have := (setGain_ok_inv pin fuel gain _ st0 hnew).1
    unfold GainOk
    rw [this]
    apply gainCode_ok
    right
    rcases hgain with rfl | rfl | rfl <;> simp [toUint8]
  refine ⟨h0, ?_⟩
  clear hnew
  induction ops generalizing st0 with
  | nil =>
    simp only [runAll, Except.ok.injEq] at hrun
    subst hrun
    exact h0
  | cons op ops ih =>
    rw [runAll] at hrun
    cases hr : op.run fp pin fuel st0 with
    | error e => simp [hr, bind, Except.bind] at hrun
    | ok s1 =>
      simp only [hr, bind, Except.bind] at hrun
      exact ih s1 hrun (run_gainOk fp pin fuel op st0 s1 h0 hr)

/-- C6, at the input where the code departs from it: a construction with the
gain argument 0, on storage that holds 0 for `_gain`, returns an object whose
stored pulse count is 0, not one of 1, 2, 3; the next `read` then emits 24
clock pulses and no gain pulse. -/
theorem new_invalid_gain_not_ok :
    ∃ st, HX711 exactOps (fun _ => false) 1 0 0 0 [] = Except.ok ((), st) ∧
      st._gain = 0 ∧ ¬ GainOk st ∧
      (read (fun _ => false) 1 st).map (fun r => clockPulses (r.2.trace.drop st.trace.length)) =
        Except.ok 24 := by
  refine ⟨_, setGain_eq (fun _ => false) 1 0 0 _
    ⟨Nat.one_pos, fun j hj => absurd hj (Nat.not_lt_zero j), rfl⟩, rfl, ?_, rfl⟩
  intro h
  simp [GainOk, gainCode, toUint8] at h

/-! ## Calibration -/

theorem getUnits_eq {D : Type} (fp : FloatOps F D) (pin : Nat → Bool) (fuel times : Nat)
    (st : State F) (avg : Int) (st' : State F)
    (h : readAverage pin fuel times st = Except.ok (avg, st')) :
    getUnits fp pin fuel times st =
      Except.ok (fp.narrow (fp.div (fp.ofInt (wrapInt32 (avg - st._offset))) (fp.widen st._scale)),
        st') := by
  obtain ⟨f1, f2, _⟩ := readAverage_frame pin fuel times st avg st' h
  unfold getUnits
  simp only [h, bind, Except.bind, pure, Except.pure, f1, f2]

/-- C9, as amended: for every `times` from 1 to 255, every scale and every
data line on which each conversion finds the line low, `readAverage(times)`
returns some `A` and, whenever `A - offset` lies in the range of `int`,
`getUnits(times)` returns `(A - offset) / scale` (the difference converted to
`double`, divided by the scale, converted to `float`) and ends in the same
state; with scale 2, offset 100 and a raw average of 300 it returns 100. -/
theorem getUnits_value :
    (∀ (D : Type) (fp : FloatOps F D) (pin : Nat → Bool) (fuel times : Nat) (st : State F),
        1 ≤ times → times < 256 → ReadsReady pin fuel times st.samples →
        ∃ A st', readAverage pin fuel times st = Except.ok (A, st') ∧
          (-(2 ^ 31) ≤ A - st._offset → A - st._offset < 2 ^ 31 →
            getUnits fp pin fuel times st =
              Except.ok (fp.narrow (fp.div (fp.ofInt (A - st._offset)) (fp.widen st._scale)),
                st'))) ∧
      (readAverage (script (false :: wordBits 300)) 1 1
          { idle (2 : ℚ) 1 with _offset := 100 }).map Prod.fst = Except.ok 300 ∧
      (getUnits exactOps (script (false :: wordBits 300)) 1 1
          { idle (2 : ℚ) 1 with _offset := 100 }).map Prod.fst = Except.ok 100 := by
  refine ⟨?_, rfl, ?_⟩
  · intro D fp pin fuel times st h1 h2 hready
    obtain ⟨vs, st', _, _, _, hr, _⟩ := readAverage_ok pin fuel times st h1 h2 hready
    refine ⟨_, st', hr, fun hlo hhi => ?_⟩
    rw [getUnits_eq fp pin fuel times st _ st' hr, wrapInt32_of_range _ hlo hhi]
  · have hr : readAverage (script (false :: wordBits 300)) 1 1
        { idle (2 : ℚ) 1 with _offset := 100 } = Except.ok (300, _) := rfl
    rw [getUnits_eq exactOps _ 1 1 _ 300 _ hr]
    simp only [Except.map, exactOps, idle, Except.ok.injEq]
    norm_num [wrapInt32]

/-- Witness of C9: ten conversions of the word 300 with offset 100 and scale 2. -/
theorem getUnits_value_witness :
    ∃ A st', readAverage (cyclic (false :: wordBits 300)) 1 10
        { idle (2 : ℚ) 1 with _offset := 100 } = Except.ok (A, st') ∧
      (-(2 ^ 31) ≤ A - 100 → A - 100 < 2 ^ 31 →
        getUnits exactOps (cyclic (false :: wordBits 300)) 1 10
            { idle (2 : ℚ) 1 with _offset := 100 } =
          Except.ok (exactOps.narrow (exactOps.div (exactOps.ofInt (A - 100)) (exactOps.widen 2)),
            st')) :=
  (@getUnits_value ℚ).1 ℚ exactOps (cyclic (false :: wordBits 300)) 1 10
    { idle (2 : ℚ) 1 with _offset := 100 } (by decide) (by decide)
    (readsReady_cyclic (wordBits 300) rfl 10 0 rfl)

/-- C9 fails as it is stated: with the offset -2147483648, the scale 1 and a
raw average of 0, the `int` difference `0 - offset` wraps to -2147483648, and
`getUnits` returns -2147483648 and not `(0 - offset) / scale = 2147483648`. -/
theorem getUnits_offset_wraps :
    (readAverage (fun _ => false) 1 1
        { idle (1 : ℚ) 1 with _offset := -2147483648 }).map Prod.fst = Except.ok 0 ∧
      (getUnits exactOps (fun _ => false) 1 1
        { idle (1 : ℚ) 1 with _offset := -2147483648 }).map Prod.fst =
          Except.ok (-2147483648) ∧
      (getUnits exactOps (fun _ => false) 1 1
        { idle (1 : ℚ) 1 with _offset := -2147483648 }).map Prod.fst ≠
          Except.ok (exactOps.narrow (exactOps.div (exactOps.ofInt (0 - (-2147483648)))
            (exactOps.widen 1))) := by
  have hr : readAverage (fun _ => false) 1 1
      { idle (1 : ℚ) 1 with _offset := -2147483648 } = Except.ok (0, _) := rfl
  have hg : (getUnits exactOps (fun _ => false) 1 1
      { idle (1 : ℚ) 1 with _offset := -2147483648 }).map Prod.fst =
        Except.ok (-2147483648) := by
    rw [getUnits_eq exactOps _ 1 1 _ 0 _ hr]
    simp only [Except.map, exactOps, idle, Except.ok.injEq]
    norm_num [wrapInt32]
  refine ⟨rfl, hg, ?_⟩
  rw [hg]
  simp only [exactOps, ne_eq, Except.ok.injEq]
  norm_num

/-- C10: for every `times` from 1 to 255 and every data line on which each
conversion finds the line low, `tare(times)` returns, has stored as offset
exactly the value that `readAverage(times)` returns on that input, has done
nothing else to the state in which `readAverage(times)` ends, and has left
the stored scale and the stored gain pulse count as they were. -/
theorem tare_sets_offset (pin : Nat → Bool) (fuel times : Nat) (st : State F)
    (h1 : 1 ≤ times) (h2 : times < 256) (hready : ReadsReady pin fuel times st.samples) :
    ∃ A st1 st', readAverage pin fuel times st = Except.ok (A, st1) ∧
      tare pin fuel times st = Except.ok ((), st') ∧
      st' = { st1 with _offset := A } ∧
      st'._offset = A ∧ st'._scale = st._scale ∧ st'._gain = st._gain := by
  obtain ⟨vs, st1, _, _, _, hr, _, f2, f3⟩ := readAverage_ok pin fuel times st h1 h2 hready
  refine ⟨_, st1, { st1 with _offset := Int.tdiv vs.sum (times : Int) }, hr, ?_, rfl, rfl, f2, f3⟩
  unfold tare
  simp only [hr, bind, Except.bind, pure, Except.pure, setOffset]

/-- Witness of C10: `tare(10)` on a line that transmits the word 300 again and
again, from an object with offset 7, scale 2 and pulse count 3. -/
theorem tare_sets_offset_witness :
    ∃ A st1 st', readAverage (cyclic (false :: wordBits 300)) 1 10
        { idle (2 : ℚ) 3 with _offset := 7 } = Except.ok (A, st1) ∧
      tare (cyclic (false :: wordBits 300)) 1 10 { idle (2 : ℚ) 3 with _offset := 7 } =
        Except.ok ((), st') ∧
      st' = { st1 with _offset := A } ∧
      st'._offset = A ∧ st'._scale = 2 ∧ st'._gain = 3 :=
  tare_sets_offset (cyclic (false :: wordBits 300)) 1 10 { idle (2 : ℚ) 3 with _offset := 7 }
    (by decide) (by decide) (readsReady_cyclic (wordBits 300) rfl 10 0 rfl)

/-- The offset stored by `tare` on the word 300 is 300. -/
theorem tare_example :
    (tare (script (false :: wordBits 300)) 1 1 (idle () 1)).map (fun r => r.2._offset) =
      Except.ok 300 :=
  rfl

/-! ## Bounded polling -/

theorem pollEvents_eq_fail (us : Int) (k : Nat) :
    pollEvents us k = failEvents us k ++ [Event.dataIn, Event.dataRead false] := rfl

theorem failEvents_succ (us : Int) (n : Nat) :
    failEvents us (n + 1) =
      [Event.dataIn, Event.dataRead true, Event.waitUs us] ++ failEvents us n := by
  simp [failEvents, List.replicate_succ]

theorem failEvents_counts (us : Int) (n : Nat) :
    dataSamples (failEvents us n) = n ∧ sleeps (failEvents us n) = n ∧
      clockPulses (failEvents us n) = 0 ∧ clockFalls (failEvents us n) = 0 ∧
      lockCount (failEvents us n) = 0 ∧ unlockCount (failEvents us n) = 0 := by
  induction n with
  | zero => simp [failEvents, dataSamples, sleeps, clockPulses, clockFalls, lockCount, unlockCount]
  | succ n ih =>
    obtain ⟨h1, h2, h3, h4, h5, h6⟩ := ih
    rw [failEvents_succ]
    simp only [dataSamples, sleeps, clockPulses, clockFalls, lockCount, unlockCount]
      at h1 h2 h3 h4 h5 h6 ⊢
    simp [List.count_cons, List.countP_cons, h1, h2, h3, h4, h5, h6]

theorem waitReadyRetryLoop_ready (pin : Nat → Bool) (delay_ms : Int) (n k : Nat) (st : State F)
    (hk : k < n) (hhigh : ∀ j, j < k → pin (st.samples + j) = true)
    (hlow : pin (st.samples + k) = false) :
    waitReadyRetryLoop pin delay_ms n st =
      (true, { st with
        samples := st.samples + k + 1,
        trace := st.trace ++ pollEvents (wrapInt32 (delay_ms * 1000)) k }) := by
  induction k generalizing n st with
  | zero =>
    obtain ⟨m, rfl⟩ : ∃ m, n = m + 1 := ⟨n - 1, by omega⟩
    simp only [Nat.add_zero] at hlow
    simp [waitReadyRetryLoop, isReady, State.sample, State.emit, hlow, pollEvents]
  | succ k ih =>
    obtain ⟨m, rfl⟩ : ∃ m, n = m + 1 := ⟨n - 1, by omega⟩
    have h0 : pin st.samples = true := by simpa using hhigh 0 (by omega)
    rw [waitReadyRetryLoop]
    simp only [isReady, State.sample, State.emit, h0]
    rw [if_neg (by decide), ih]
    · simp [pollEvents, List.replicate_succ, Nat.add_assoc, Nat.add_comm 1]
    · omega
    · intro j hj
      have := hhigh (j + 1) (by omega)
      simpa [Nat.add_assoc, Nat.add_comm 1] using this
    · simpa [Nat.add_assoc, Nat.add_comm 1] using hlow

theorem waitReadyRetryLoop_exhaust (pin : Nat → Bool) (delay_ms : Int) (n : Nat) (st : State F)
    (hhigh : ∀ j, j < n → pin (st.samples + j) = true) :
    waitReadyRetryLoop pin delay_ms n st =
      (false, { st with
        samples := st.samples + n,
        trace := st.trace ++ failEvents (wrapInt32 (delay_ms * 1000)) n }) := by
  induction n generalizing st with
  | zero => simp [waitReadyRetryLoop, failEvents]
  | succ n ih =>
    have h0 : pin st.samples = true := by simpa using hhigh 0 (by omega)
    rw [waitReadyRetryLoop]
    simp only [isReady, State.sample, State.emit, h0]
    rw [if_neg (by decide), ih]
    · simp [failEvents_succ, Nat.add_assoc, Nat.add_comm 1]
    · intro j hj
      have := hhigh (j + 1) (by omega)
      simpa [Nat.add_assoc, Nat.add_comm 1] using this

theorem exists_first_low (pin : Nat → Bool) (p n : Nat)
    (h : ∃ j, j < n ∧ pin (p + j) = false) :
    ∃ k, k < n ∧ (∀ j, j < k → pin (p + j) = true) ∧ pin (p + k) = false := by
  classical
  have hex : ∃ j, pin (p + j) = false := by
    obtain ⟨j, _, hj⟩ := h
    exact ⟨j, hj⟩
  refine ⟨Nat.find hex, ?_, ?_, Nat.find_spec hex⟩
  · obtain ⟨j, hjn, hj⟩ := h
    exact lt_of_le_of_lt (Nat.find_min' hex hj) hjn
  · intro j hj
    have := Nat.find_min hex hj
    cases hp : pin (p + j) with
    | true => rfl
    | false => exact absurd hp this

/-- C12: `waitReadyRetry(retries, delayMs)` is total; it returns `true` exactly
when the data line reads low at one of the first `retries` polls; when the
first low level comes at poll `k + 1` it stops there, after `k + 1` pin reads;
when none of the first `retries` polls reads low it performs exactly `retries`
pin reads (none when `retries ≤ 0`) and returns `false`; with `retries = 3`
on a line that is never ready it returns `false` after exactly 3 pin reads. -/
theorem waitReadyRetry_spec (pin : Nat → Bool) (retries delay_ms : Int) (st : State F) :
    ((waitReadyRetry pin retries delay_ms st).1 = true ↔
        ∃ j, j < retries.toNat ∧ pin (st.samples + j) = false) ∧
      (∀ k, k < retries.toNat → (∀ j, j < k → pin (st.samples + j) = true) →
        pin (st.samples + k) = false →
        waitReadyRetry pin retries delay_ms st =
          (true, { st with
            samples := st.samples + k + 1,
            trace := st.trace ++ pollEvents (wrapInt32 (delay_ms * 1000)) k }) ∧
        dataSamples (pollEvents (wrapInt32 (delay_ms * 1000)) k) = k + 1) ∧
      ((∀ j, j < retries.toNat → pin (st.samples + j) = true) →
        waitReadyRetry pin retries delay_ms st =
          (false, { st with
            samples := st.samples + retries.toNat,
            trace := st.trace ++ failEvents (wrapInt32 (delay_ms * 1000)) retries.toNat }) ∧
        dataSamples (failEvents (wrapInt32 (delay_ms * 1000)) retries.toNat) = retries.toNat) ∧
      (retries ≤ 0 → waitReadyRetry pin retries delay_ms st = (false, st)) ∧
      (waitReadyRetry (fun _ => true) 3 0 st).1 = false ∧
      (waitReadyRetry (fun _ => true) 3 0 st).2.samples = st.samples + 3 ∧
      (waitReadyRetry (fun _ => true) 3 0 st).2.trace = st.trace ++ failEvents 0 3 ∧
      dataSamples (failEvents 0 3) = 3 := by
  have hready : ∀ k, k < retries.toNat → (∀ j, j < k → pin (st.samples + j) = true) →
      pin (st.samples + k) = false →
      waitReadyRetry pin retries delay_ms st =
        (true, { st with
          samples := st.samples + k + 1,
          trace := st.trace ++ pollEvents (wrapInt32 (delay_ms * 1000)) k }) :=
    fun k hk hhigh hlow => waitReadyRetryLoop_ready pin delay_ms _ k st hk hhigh hlow
  have hfail : (∀ j, j < retries.toNat → pin (st.samples + j) = true) →
      waitReadyRetry pin retries delay_ms st =
        (false, { st with
          samples := st.samples + retries.toNat,
          trace := st.trace ++ failEvents (wrapInt32 (delay_ms * 1000)) retries.toNat }) :=
    fun hhigh => waitReadyRetryLoop_exhaust pin delay_ms _ st hhigh
  have h3 := waitReadyRetryLoop_exhaust (fun _ => true) 0 3 st (fun _ _ => rfl)
  have hz : wrapInt32 (0 * 1000) = 0 := by decide
  rw [hz] at h3
  have h3' : waitReadyRetry (fun _ => true) 3 0 st =
      (false, { st with samples := st.samples + 3, trace := st.trace ++ failEvents 0 3 }) := h3
  refine ⟨⟨?_, ?_⟩, ?_, ?_, ?_, ?_, ?_, ?_, ?_⟩
  · intro htrue
    by_contra hne
    have hall : ∀ j, j < retries.toNat → pin (st.samples + j) = true := by
      intro j hj
      cases hp : pin (st.samples + j) with
      | true => rfl
      | false => exact absurd ⟨j, hj, hp⟩ hne
    rw [hfail hall] at htrue
    exact Bool.noConfusion htrue
  · intro hex
    obtain ⟨k, hk, hhigh, hlow⟩ := exists_first_low pin st.samples _ hex
    rw [hready k hk hhigh hlow]
  · intro k hk hhigh hlow
    refine ⟨hready k hk hhigh hlow, ?_⟩
    rw [pollEvents_eq_fail]
    have h := (failEvents_counts (wrapInt32 (delay_ms * 1000)) k).1
    simp only [dataSamples, List.countP_append] at h ⊢
    rw [h]
    simp [List.countP_cons]
  · intro hhigh
    exact ⟨hfail hhigh, (failEvents_counts _ _).1⟩
  · intro hle
    have h0 : retries.toNat = 0 := Int.toNat_eq_zero.mpr hle
    simp [waitReadyRetry, h0, waitReadyRetryLoop]
  · rw [h3']
  · rw [h3']
  · rw [h3']
  · exact (failEvents_counts 0 3).1

/-- Witness of C12: with `retries = 5` on a line that is high twice and then
low, the call returns `true` after 3 pin reads. -/
theorem waitReadyRetry_spec_witness :
    waitReadyRetry (script [true, true, false]) 5 0 (idle () 1) =
        (true, { idle () 1 with
          samples := 0 + 2 + 1,
          trace := [] ++ pollEvents (wrapInt32 (0 * 1000)) 2 }) ∧
      dataSamples (pollEvents (wrapInt32 (0 * 1000)) 2) = 2 + 1 :=
  (waitReadyRetry_spec (script [true, true, false]) 5 0 (idle () 1)).2.1 2
    (by decide) (by decide) (by decide)

/-- C18, at the input where the code departs from it: `waitReadyRetry(3, 5)`
on a line that is never ready makes 3 unsuccessful polls, returns `false` and
has slept 3 times for 5000 microseconds, the last time after the final poll;
the last event of the call is that sleep. -/
theorem waitReadyRetry_sleeps_after_last_poll :
    (waitReadyRetry (fun _ => true) 3 5 (idle () 1)).1 = false ∧
      dataSamples (waitReadyRetry (fun _ => true) 3 5 (idle () 1)).2.trace = 3 ∧
      sleeps (waitReadyRetry (fun _ => true) 3 5 (idle () 1)).2.trace = 3 ∧
      (waitReadyRetry (fun _ => true) 3 5 (idle () 1)).2.trace =
        [Event.dataIn, Event.dataRead true, Event.waitUs 5000,
         Event.dataIn, Event.dataRead true, Event.waitUs 5000,
         Event.dataIn, Event.dataRead true, Event.waitUs 5000] ∧
      (waitReadyRetry (fun _ => true) 3 5 (idle () 1)).2.trace.getLast? =
        some (Event.waitUs 5000) := by
  refine ⟨rfl, ?_, ?_, ?_, ?_⟩ <;> decide

/-- The general count behind C18: a call of `waitReadyRetry` whose `n` polls
all find the line high returns `false` after `n` sleeps, one after each poll. -/
theorem waitReadyRetry_sleep_count (pin : Nat → Bool) (retries delay_ms : Int) (st : State F)
    (hhigh : ∀ j, j < retries.toNat → pin (st.samples + j) = true) :
    waitReadyRetry pin retries delay_ms st =
        (false, { st with
          samples := st.samples + retries.toNat,
          trace := st.trace ++ failEvents (wrapInt32 (delay_ms * 1000)) retries.toNat }) ∧
      sleeps (failEvents (wrapInt32 (delay_ms * 1000)) retries.toNat) = retries.toNat :=
  ⟨waitReadyRetryLoop_exhaust pin delay_ms _ st hhigh, (failEvents_counts _ _).2.1⟩

/-! ## Gain commit, power control and setters -/

theorem read_events_clockPulses (pin : Nat → Bool) (q k g : Nat) :
    clockPulses ([Event.sckOut, Event.dataIn] ++ pollEvents 0 k ++ [Event.lock] ++
      bitEvents pin q 24 ++ gainEvents g ++ [Event.unlock]) = 24 + g := by
  obtain ⟨g1, _, _⟩ := gainEvents_counts g
  obtain ⟨p1, _⟩ := pollEvents_clockPulses 0 k
  have b1 := bitEvents_clockPulses pin q 24
  simp only [clockPulses, List.count_append] at b1 g1 p1 ⊢
  rw [b1, g1, p1]
  simp [List.count_cons]

/-- C13: for every gain argument, on a device that becomes ready, `setGain`
returns after it has stored the new pulse count (1, 3, 2 for 128, 64, 32, the
prior count otherwise), then constructed the clock pin and written it low,
then performed exactly one `read()` in the state so reached, whose value it
drops; that conversion emits 24 plus the new stored pulse count clock pulses,
and the stored offset and scale are as before. -/
theorem setGain_one_conversion (pin : Nat → Bool) (fuel k gain : Nat) (st : State F)
    (hready : ReadyAt pin fuel st.samples k) :
    ∃ v st', setGain pin fuel gain st = Except.ok ((), st') ∧
      read pin fuel { st with
          _gain := gainCode (toUint8 gain) st._gain,
          trace := st.trace ++ [Event.sckOut, Event.sckWrite false] } = Except.ok (v, st') ∧
      st'._gain = gainCode (toUint8 gain) st._gain ∧
      st'.trace = st.trace ++ [Event.sckOut, Event.sckWrite false] ++
        ([Event.sckOut, Event.dataIn] ++ pollEvents 0 k ++ [Event.lock] ++
          bitEvents pin (st.samples + k + 1) 24 ++
          gainEvents (gainCode (toUint8 gain) st._gain) ++ [Event.unlock]) ∧
      clockPulses ([Event.sckOut, Event.dataIn] ++ pollEvents 0 k ++ [Event.lock] ++
          bitEvents pin (st.samples + k + 1) 24 ++
          gainEvents (gainCode (toUint8 gain) st._gain) ++ [Event.unlock]) =
        24 + gainCode (toUint8 gain) st._gain ∧
      st'._offset = st._offset ∧ st'._scale = st._scale := by
  refine ⟨signed24 (msbFirst pin (st.samples + k + 1)), _, setGain_eq pin fuel k gain st hready,
    ?_, rfl, rfl, read_events_clockPulses pin _ k _, rfl, rfl⟩
  rw [read_eq pin fuel k { st with
      _gain := gainCode (toUint8 gain) st._gain,
      trace := st.trace ++ [Event.sckOut, Event.sckWrite false] } hready]
  simp

/-- Witness of C13: `setGain(64)` from a stored pulse count of 1, on a line
that is ready at the second poll. -/
theorem setGain_one_conversion_witness :
    ∃ v st', setGain (script (true :: false :: wordBits 5)) 2 64 (idle () 1) =
        Except.ok ((), st') ∧
      read (script (true :: false :: wordBits 5)) 2
        { idle () 1 with _gain := 3, trace := [Event.sckOut, Event.sckWrite false] } =
          Except.ok (v, st') ∧
      st'._gain = 3 ∧ clockPulses st'.trace = 27 := by
  obtain ⟨v, st', h1, h2, h3, h4, h5, _⟩ :=
    setGain_one_conversion (script (true :: false :: wordBits 5)) 2 1 64 (idle () 1)
      ⟨by decide, by decide, by decide⟩
  refine ⟨v, st', h1, h2, h3, ?_⟩
  rw [h4]
  simp only [clockPulses, List.count_append] at h5 ⊢
  rw [h5]
  decide

theorem clockLevel_append_write (tr : List Event) (level : Bool) :
    clockLevel (tr ++ [Event.sckWrite level]) = some level := by
  induction tr with
  | nil => rfl
  | cons e tr ih => simp [clockLevel, ih]

/-- C14: `powerDown` constructs the clock pin, writes it low and then high, so
the clock line is high when it returns; `powerUp` constructs the clock pin and
writes it low, so the clock line is low when it returns; neither samples the
data line, and neither changes the stored offset, scale or gain pulse count. -/
theorem power_control (st : State F) :
    (powerDown st).trace =
        st.trace ++ [Event.sckOut, Event.sckWrite false, Event.sckWrite true] ∧
      clockLevel (powerDown st).trace = some true ∧
      (powerUp st).trace = st.trace ++ [Event.sckOut, Event.sckWrite false] ∧
      clockLevel (powerUp st).trace = some false ∧
      (powerDown st).samples = st.samples ∧ (powerUp st).samples = st.samples ∧
      dataSamples [Event.sckOut, Event.sckWrite false, Event.sckWrite true] = 0 ∧
      dataSamples [Event.sckOut, Event.sckWrite false] = 0 ∧
      (powerDown st)._offset = st._offset ∧ (powerDown st)._scale = st._scale ∧
      (powerDown st)._gain = st._gain ∧
      (powerUp st)._offset = st._offset ∧ (powerUp st)._scale = st._scale ∧
      (powerUp st)._gain = st._gain := by
  have hd : (powerDown st).trace =
      st.trace ++ [Event.sckOut, Event.sckWrite false] ++ [Event.sckWrite true] := by
    simp [powerDown, State.emit]
  have hu : (powerUp st).trace = st.trace ++ [Event.sckOut] ++ [Event.sckWrite false] := by
    simp [powerUp, State.emit]
  refine ⟨by simp [powerDown, State.emit], ?_, by simp [powerUp, State.emit], ?_,
    rfl, rfl, by decide, by decide, rfl, rfl, rfl, rfl, rfl, rfl⟩
  · rw [hd, clockLevel_append_write]
  · rw [hu, clockLevel_append_write]

/-- C15: `setOffset(o)` makes the stored offset `o` and `setScale(s)` makes the
stored scale `s`, for every argument (nothing is checked, so zero is stored
like any other value); each leaves every other member, the number of pin
reads and the trace as they were, so neither writes a pin, reads a pin or
sleeps. -/
theorem setters_pure (o : Int) (s : F) (st : State F) :
    setOffset o st = { st with _offset := o } ∧
      (setOffset o st)._offset = o ∧ (setOffset o st)._scale = st._scale ∧
      (setOffset o st)._gain = st._gain ∧ (setOffset o st).samples = st.samples ∧
      (setOffset o st).trace = st.trace ∧
      setScale s st = { st with _scale := s } ∧
      (setScale s st)._scale = s ∧ (setScale s st)._offset = st._offset ∧
      (setScale s st)._gain = st._gain ∧ (setScale s st).samples = st.samples ∧
      (setScale s st).trace = st.trace :=
  ⟨rfl, rfl, rfl, rfl, rfl, rfl, rfl, rfl, rfl, rfl, rfl, rfl⟩

/-! ## Order of events in one conversion -/

theorem pollEvents_counts (us : Int) (k : Nat) :
    dataSamples (pollEvents us k) = k + 1 ∧ sleeps (pollEvents us k) = k ∧
      lockCount (pollEvents us k) = 0 ∧ unlockCount (pollEvents us k) = 0 := by
  obtain ⟨h1, h2, _, _, h5, h6⟩ := failEvents_counts us k
  rw [pollEvents_eq_fail]
  simp only [dataSamples, sleeps, lockCount, unlockCount, List.countP_append,
    List.count_append] at h1 h2 h5 h6 ⊢
  rw [h1, h2, h5, h6]
  simp [List.countP_cons, List.count_cons]

theorem pollEvents_getLast (us : Int) (k : Nat) :
    ([Event.sckOut, Event.dataIn] ++ pollEvents us k).getLast? = some (Event.dataRead false) := by
  rw [pollEvents_eq_fail]
  have : [Event.sckOut, Event.dataIn] ++ (failEvents us k ++ [Event.dataIn, Event.dataRead false]) =
      ([Event.sckOut, Event.dataIn] ++ failEvents us k ++ [Event.dataIn]) ++
        [Event.dataRead false] := by simp
  rw [this, List.getLast?_append]
  simp

theorem bitEvents_locks (pin : Nat → Bool) (q n : Nat) :
    lockCount (bitEvents pin q n) = 0 ∧ unlockCount (bitEvents pin q n) = 0 := by
  induction n generalizing q with
  | zero => simp [bitEvents, lockCount, unlockCount]
  | succ n ih =>
    obtain ⟨h1, h2⟩ := ih (q + 1)
    rw [bitEvents_succ]
    simp only [lockCount, unlockCount] at h1 h2 ⊢
    simp [List.count_cons, h1, h2]

theorem gainEvents_locks (g : Nat) :
    lockCount (gainEvents g) = 0 ∧ unlockCount (gainEvents g) = 0 := by
  induction g with
  | zero => simp [gainEvents, lockCount, unlockCount]
  | succ g ih =>
    obtain ⟨h1, h2⟩ := ih
    rw [gainEvents_succ]
    simp only [lockCount, unlockCount] at h1 h2 ⊢
    simp [List.count_cons, h1, h2]

theorem no_pulse_before_ready (pre mid a b : List Event)
    (hpre : clockPulses pre = 0) (hlast : pre.getLast? = some (Event.dataRead false))
    (h : pre ++ mid = a ++ Event.sckWrite true :: b) :
    Event.dataRead false ∈ a := by
  have hmem : Event.dataRead false ∈ pre := List.mem_of_getLast?_eq_some hlast
  rcases List.append_eq_append_iff.mp h with ⟨a', ha, _⟩ | ⟨c', hc, hx⟩
  · rw [ha]
    exact List.mem_append_left _ hmem
  · cases c' with
    | nil =>
      rw [List.append_nil] at hc
      rw [← hc]
      exact hmem
    | cons x c'' =>
      simp only [List.cons_append, List.cons.injEq] at hx
      obtain ⟨hx, _⟩ := hx
      subst hx
      rw [hc] at hpre
      simp [clockPulses, List.count_append, List.count_cons] at hpre

/-- C16: when the data line first reads low at the `k`-th poll of `read()`
(`k ≥ 1`), `read()` returns; before it locks it performs exactly `k` readiness
polls, the last of which observes the low level, and writes no high level to
the clock; the 24-bit clocking sequence starts only after that.  Every write
of the high level to the clock during the call comes after a poll that
observed the line low. -/
theorem read_polls_before_clock (pin : Nat → Bool) (fuel k : Nat) (st : State F)
    (hk : 1 ≤ k) (hready : ReadyAt pin fuel st.samples (k - 1)) :
    ∃ v st', read pin fuel st = Except.ok (v, st') ∧
      st'.trace = st.trace ++ (([Event.sckOut, Event.dataIn] ++ pollEvents 0 (k - 1)) ++
        ([Event.lock] ++ bitEvents pin (st.samples + k) 24 ++ gainEvents st._gain ++
          [Event.unlock])) ∧
      dataSamples ([Event.sckOut, Event.dataIn] ++ pollEvents 0 (k - 1)) = k ∧
      clockPulses ([Event.sckOut, Event.dataIn] ++ pollEvents 0 (k - 1)) = 0 ∧
      ([Event.sckOut, Event.dataIn] ++ pollEvents 0 (k - 1)).getLast? =
        some (Event.dataRead false) ∧
      (∀ a b, ([Event.sckOut, Event.dataIn] ++ pollEvents 0 (k - 1)) ++
          ([Event.lock] ++ bitEvents pin (st.samples + k) 24 ++ gainEvents st._gain ++
            [Event.unlock]) = a ++ Event.sckWrite true :: b →
        Event.dataRead false ∈ a) := by
  have hq : st.samples + (k - 1) + 1 = st.samples + k := by omega
  have hp : clockPulses ([Event.sckOut, Event.dataIn] ++ pollEvents 0 (k - 1)) = 0 := by
    have := (pollEvents_clockPulses 0 (k - 1)).1
    simp only [clockPulses, List.count_append] at this ⊢
    rw [this]
    simp [List.count_cons]
  have hd : dataSamples ([Event.sckOut, Event.dataIn] ++ pollEvents 0 (k - 1)) = k := by
    have := (pollEvents_counts 0 (k - 1)).1
    simp only [dataSamples, List.countP_append] at this ⊢
    rw [this]
    simp [List.countP_cons]
    omega
  refine ⟨_, _, read_eq pin fuel (k - 1) st hready, ?_, hd, hp, pollEvents_getLast 0 (k - 1), ?_⟩
  · simp [hq]
  · intro a b h
    exact no_pulse_before_ready _ _ a b hp (pollEvents_getLast 0 (k - 1)) h

/-- Witness of C16: a line that is high twice and then low is ready at the
third poll; `read` polls three times before the first clock pulse. -/
theorem read_polls_before_clock_witness :
    ∃ v st', read (script (true :: true :: false :: wordBits 300)) 3 (idle () 1) =
        Except.ok (v, st') ∧
      dataSamples ([Event.sckOut, Event.dataIn] ++ pollEvents 0 (3 - 1)) = 3 ∧
      clockPulses ([Event.sckOut, Event.dataIn] ++ pollEvents 0 (3 - 1)) = 0 := by
  obtain ⟨v, st', h1, _, h3, h4, _⟩ :=
    read_polls_before_clock (script (true :: true :: false :: wordBits 300)) 3 3 (idle () 1)
      (by decide) (by decide)
  exact ⟨v, st', h1, h3, h4⟩

/-- C17: the events of every completed `read()` are: the polling, one entry to
the critical section, the clocking sequence, one exit from the critical
section, in this order and nothing else.  The entry and the exit occur exactly
once each; the polling (all `k + 1` polls, no clock write) lies before the
entry; the `24 + _gain` clock pulses and the 24 data samples of the clocking
sequence lie between the entry and the exit; the exit is the last event, so
`read()` returns with the window closed. -/
theorem read_critical_window (pin : Nat → Bool) (fuel : Nat) (st : State F) (v : Int)
    (st' : State F) (h : read pin fuel st = Except.ok (v, st')) :
    ∃ k, st'.trace = st.trace ++ (([Event.sckOut, Event.dataIn] ++ pollEvents 0 k) ++
        [Event.lock] ++ (bitEvents pin (st.samples + k + 1) 24 ++ gainEvents st._gain) ++
        [Event.unlock]) ∧
      lockCount (([Event.sckOut, Event.dataIn] ++ pollEvents 0 k) ++
        [Event.lock] ++ (bitEvents pin (st.samples + k + 1) 24 ++ gainEvents st._gain) ++
        [Event.unlock]) = 1 ∧
      unlockCount (([Event.sckOut, Event.dataIn] ++ pollEvents 0 k) ++
        [Event.lock] ++ (bitEvents pin (st.samples + k + 1) 24 ++ gainEvents st._gain) ++
        [Event.unlock]) = 1 ∧
      dataSamples ([Event.sckOut, Event.dataIn] ++ pollEvents 0 k) = k + 1 ∧
      clockPulses ([Event.sckOut, Event.dataIn] ++ pollEvents 0 k) = 0 ∧
      clockFalls ([Event.sckOut, Event.dataIn] ++ pollEvents 0 k) = 0 ∧
      clockPulses (bitEvents pin (st.samples + k + 1) 24 ++ gainEvents st._gain) =
        24 + st._gain ∧
      clockFalls (bitEvents pin (st.samples + k + 1) 24 ++ gainEvents st._gain) =
        24 + st._gain ∧
      dataSamples (bitEvents pin (st.samples + k + 1) 24 ++ gainEvents st._gain) = 24 ∧
      (([Event.sckOut, Event.dataIn] ++ pollEvents 0 k) ++
        [Event.lock] ++ (bitEvents pin (st.samples + k + 1) 24 ++ gainEvents st._gain) ++
        [Event.unlock]).getLast? = some Event.unlock := by
  obtain ⟨k, hk⟩ := read_ok_inv pin fuel st _ h
  rw [read_eq pin fuel k st hk] at h
  simp only [Except.ok.injEq, Prod.mk.injEq] at h
  obtain ⟨_, hs⟩ := h
  subst hs
  obtain ⟨p1, p2⟩ := pollEvents_clockPulses 0 k
  obtain ⟨p3, _, p5, p6⟩ := pollEvents_counts 0 k
  obtain ⟨g1, g2, g3⟩ := gainEvents_counts st._gain
  obtain ⟨g5, g6⟩ := gainEvents_locks st._gain
  have b1 := bitEvents_clockPulses pin (st.samples + k + 1) 24
  have b2 := bitEvents_clockFalls pin (st.samples + k + 1) 24
  have b3 := bitEvents_dataSamples pin (st.samples + k + 1) 24
  obtain ⟨b5, b6⟩ := bitEvents_locks pin (st.samples + k + 1) 24
  simp only [clockPulses, clockFalls, dataSamples, lockCount, unlockCount, List.count_append,
    List.countP_append] at p1 p2 p3 p5 p6 g1 g2 g3 g5 g6 b1 b2 b3 b5 b6 ⊢
  refine ⟨k, by simp, ?_, ?_, ?_, ?_, ?_, ?_, ?_, ?_, ?_⟩
  · rw [p5, b5, g5]; simp [List.count_cons]
  · rw [p6, b6, g6]; simp [List.count_cons]
  · rw [p3]; simp [List.countP_cons]
  · rw [p1]; simp [List.count_cons]
  · rw [p2]; simp [List.count_cons]
  · rw [b1, g1]
  · rw [b2, g2]
  · rw [b3, g3]
  · rw [List.getLast?_append]
    simp

/-- Witness of C17: a completed `read()` of the word 300 with a stored pulse
count of 2, ready at the second poll. -/
theorem read_critical_window_witness :
    ∃ k, lockCount (([Event.sckOut, Event.dataIn] ++ pollEvents 0 k) ++
        [Event.lock] ++ (bitEvents (script (true :: false :: wordBits 300)) (0 + k + 1) 24 ++
          gainEvents 2) ++ [Event.unlock]) = 1 ∧
      unlockCount (([Event.sckOut, Event.dataIn] ++ pollEvents 0 k) ++
        [Event.lock] ++ (bitEvents (script (true :: false :: wordBits 300)) (0 + k + 1) 24 ++
          gainEvents 2) ++ [Event.unlock]) = 1 := by
  obtain ⟨k, _, h2, h3, _⟩ :=
    read_critical_window (script (true :: false :: wordBits 300)) 2 (idle () 2) _ _
      (read_eq (script (true :: false :: wordBits 300)) 2 1 (idle () 2)
        ⟨by decide, by decide, by decide⟩)
  exact ⟨k, h2, h3⟩

/-! ## Range of the sum and of the average -/

theorem sum_bounds (vs : List Int) (h : ∀ v ∈ vs, -(2 ^ 23) ≤ v ∧ v < 2 ^ 23) :
    -((vs.length : Int) * 2 ^ 23) ≤ vs.sum ∧ vs.sum ≤ (vs.length : Int) * (2 ^ 23 - 1) := by
  induction vs with
  | nil => simp
  | cons v vs ih =>
    obtain ⟨h1, h2⟩ := ih (fun x hx => h x (List.mem_cons_of_mem _ hx))
    obtain ⟨h3, h4⟩ := h v (List.mem_cons_self _ _)
    simp only [List.sum_cons, List.length_cons]
    push_cast
    constructor <;> nlinarith

theorem tdiv_bounds (s : Int) (t : Nat) (ht : 1 ≤ t)
    (hlo : -((t : Int) * 2 ^ 23) ≤ s) (hhi : s ≤ (t : Int) * (2 ^ 23 - 1)) :
    -(2 ^ 23) ≤ Int.tdiv s (t : Int) ∧ Int.tdiv s (t : Int) ≤ 2 ^ 23 - 1 := by
  have htpos : (0 : Int) < (t : Int) := by exact_mod_cast ht
  rcases le_or_lt 0 s with hs | hs
  · rw [Int.tdiv_eq_ediv hs (le_of_lt htpos)]
    have h1 : 0 ≤ s / (t : Int) := Int.ediv_nonneg hs (le_of_lt htpos)
    have h2 : s / (t : Int) ≤ 2 ^ 23 - 1 :=
      Int.ediv_le_of_le_mul htpos (by rw [mul_comm]; exact hhi)
    constructor
    · omega
    · exact h2
  · have hneg : s = -(-s) := by ring
    have hs' : 0 ≤ -s := by omega
    rw [hneg, Int.neg_tdiv, Int.tdiv_eq_ediv hs' (le_of_lt htpos)]
    have h1 : 0 ≤ -s / (t : Int) := Int.ediv_nonneg hs' (le_of_lt htpos)
    have h2 : -s / (t : Int) ≤ 2 ^ 23 :=
      Int.ediv_le_of_le_mul htpos (by rw [mul_comm]; omega)
    constructor <;> omega

theorem readMany_take (pin : Nat → Bool) (fuel n : Nat) (st : State F) (vs : List Int)
    (st' : State F) (h : readMany pin fuel n st = Except.ok (vs, st')) (m : Nat) (hm : m ≤ n) :
    ∃ s, readMany pin fuel m st = Except.ok (vs.take m, s) := by
  induction n generalizing st vs st' m with
  | zero =>
    have : m = 0 := by omega
    subst this
    exact ⟨st, by simp [readMany]⟩
  | succ n ih =>
    cases m with
    | zero => exact ⟨st, by simp [readMany]⟩
    | succ m =>
      rw [readMany] at h
      cases hr : read pin fuel st with
      | error e => simp [hr, bind, Except.bind] at h
      | ok p =>
        obtain ⟨x, s1⟩ := p
        simp only [hr, bind, Except.bind] at h
        cases hn : readMany pin fuel n s1 with
        | error e => simp [hn] at h
        | ok q =>
          obtain ⟨ws, s2⟩ := q
          simp only [hn, pure, Except.pure, Except.ok.injEq, Prod.mk.injEq] at h
          obtain ⟨hvs, _⟩ := h
          subst hvs
          obtain ⟨s, hs⟩ := ih s1 ws s2 hn m (by omega)
          refine ⟨s, ?_⟩
          rw [readMany]
          simp only [hr, bind, Except.bind, hs, pure, Except.pure, List.take_succ_cons]

/-- C19: for every `times` from 1 to 255 and every data line on which the
conversions become ready, each raw sample lies in `[-2^23, 2^23 - 1]`; every
partial sum that `readAverage` accumulates lies in the range of a signed
32-bit integer and the 32-bit accumulator holds it exactly, so the summation
never overflows; and the value that `readAverage` returns lies in
`[-2^23, 2^23 - 1]`. -/
theorem readAverage_no_overflow (pin : Nat → Bool) (fuel times : Nat) (st : State F)
    (h1 : 1 ≤ times) (h2 : times ≤ 255) (hready : ReadsReady pin fuel times st.samples) :
    ∃ vs st', readMany pin fuel times st = Except.ok (vs, st') ∧ vs.length = times ∧
      (∀ v ∈ vs, -(2 ^ 23) ≤ v ∧ v ≤ 2 ^ 23 - 1) ∧
      (∀ m, m ≤ times →
        -(2 ^ 31) ≤ (vs.take m).sum ∧ (vs.take m).sum ≤ 2 ^ 31 - 1 ∧
        ∃ s, sumReads pin fuel m 0 st = Except.ok ((vs.take m).sum, s)) ∧
      readAverage pin fuel times st = Except.ok (Int.tdiv vs.sum (times : Int), st') ∧
      -(2 ^ 23) ≤ Int.tdiv vs.sum (times : Int) ∧ Int.tdiv vs.sum (times : Int) ≤ 2 ^ 23 - 1 := by
  obtain ⟨vs, st', hm, hl, hb, hr, _⟩ :=
    readAverage_ok pin fuel times st h1 (by omega) hready
  have hsum := sum_bounds vs hb
  rw [hl] at hsum
  refine ⟨vs, st', hm, hl, ?_, ?_, hr, tdiv_bounds vs.sum times h1 hsum.1 hsum.2⟩
  · intro v hv
    have := hb v hv
    omega
  · intro m hmle
    have hbt : ∀ v ∈ vs.take m, -(2 ^ 23) ≤ v ∧ v < 2 ^ 23 :=
      fun v hv => hb v (List.mem_of_mem_take hv)
    have hst := sum_bounds (vs.take m) hbt
    have hlen : (vs.take m).length = m := by
      rw [List.length_take, hl]
      omega
    rw [hlen] at hst
    have hmc : (m : Int) ≤ 255 := by exact_mod_cast (le_trans hmle h2)
    have hm0 : (0 : Int) ≤ (m : Int) := by exact_mod_cast Nat.zero_le m
    obtain ⟨s, hs⟩ := readMany_take pin fuel times st vs st' hm m hmle
    refine ⟨by nlinarith [hst.1], by nlinarith [hst.2], s, ?_⟩
    rw [sumReads_eq pin fuel m 0 st (by nlinarith) (by nlinarith), hs]
    simp [Except.map]

/-- Witness of C19: 255 conversions of the most negative word 0x800000. -/
theorem readAverage_no_overflow_witness :
    ∃ vs st', readMany (cyclic (false :: wordBits 0x800000)) 1 255 (idle () 1) =
        Except.ok (vs, st') ∧ vs.length = 255 ∧
      (∀ m, m ≤ 255 → -(2 ^ 31) ≤ (vs.take m).sum ∧ (vs.take m).sum ≤ 2 ^ 31 - 1) ∧
      -(2 ^ 23) ≤ Int.tdiv vs.sum ((255 : Nat) : Int) ∧
      Int.tdiv vs.sum ((255 : Nat) : Int) ≤ 2 ^ 23 - 1 := by
  obtain ⟨vs, st', h1, h2, _, h4, _, h6, h7⟩ :=
    readAverage_no_overflow (cyclic (false :: wordBits 0x800000)) 1 255 (idle () 1)
      (by decide) (by decide) (readsReady_cyclic (wordBits 0x800000) rfl 255 0 rfl)
  exact ⟨vs, st', h1, h2, fun m hm => ⟨(h4 m hm).1, (h4 m hm).2.1⟩, h6, h7⟩

/-! ## A fresh object, and taring -/

theorem readAverage_ok_range (pin : Nat → Bool) (fuel times : Nat) (st : State F)
    (h1 : 1 ≤ times) (h2 : times < 256) (hready : ReadsReady pin fuel times st.samples) :
    ∃ vs st', readMany pin fuel times st = Except.ok (vs, st') ∧
      readAverage pin fuel times st = Except.ok (Int.tdiv vs.sum (times : Int), st') ∧
      -(2 ^ 23) ≤ Int.tdiv vs.sum (times : Int) ∧ Int.tdiv vs.sum (times : Int) ≤ 2 ^ 23 - 1 ∧
      st'._offset = st._offset ∧ st'._scale = st._scale ∧ st'._gain = st._gain := by
  obtain ⟨vs, st', hm, hl, hb, hr, hf⟩ := readAverage_ok pin fuel times st h1 h2 hready
  have hsum := sum_bounds vs hb
  rw [hl] at hsum
  obtain ⟨t1, t2⟩ := tdiv_bounds vs.sum times h1 hsum.1 hsum.2
  exact ⟨vs, st', hm, hr, t1, t2, hf⟩

theorem msbFirst_shift (pin : Nat → Bool) (p q : Nat)
    (hsh : ∀ j, pin (q + j) = pin (p + j)) : msbFirst pin q = msbFirst pin p := by
  unfold msbFirst
  apply Finset.sum_congr rfl
  intro i _
  rw [hsh]

theorem readMany_shift (pin : Nat → Bool) (fuel n : Nat) (sA sB : State F) (vs : List Int)
    (stA : State F) (hsh : ∀ j, pin (sB.samples + j) = pin (sA.samples + j))
    (h : readMany pin fuel n sA = Except.ok (vs, stA)) :
    ∃ stB, readMany pin fuel n sB = Except.ok (vs, stB) := by
  induction n generalizing sA sB vs stA with
  | zero =>
    simp only [readMany, Except.ok.injEq, Prod.mk.injEq] at h
    obtain ⟨rfl, _⟩ := h
    exact ⟨sB, rfl⟩
  | succ n ih =>
    rw [readMany] at h
    cases hr : read pin fuel sA with
    | error e => simp [hr, bind, Except.bind] at h
    | ok p =>
      obtain ⟨x, s1⟩ := p
      simp only [hr, bind, Except.bind] at h
      cases hn : readMany pin fuel n s1 with
      | error e => simp [hn] at h
      | ok q =>
        obtain ⟨ws, s2⟩ := q
        simp only [hn, pure, Except.pure, Except.ok.injEq, Prod.mk.injEq] at h
        obtain ⟨hvs, _⟩ := h
        subst hvs
        obtain ⟨k, hk⟩ := read_ok_inv pin fuel sA _ hr
        have hkB : ReadyAt pin fuel sB.samples k := by
          obtain ⟨a, b, c⟩ := hk
          refine ⟨a, fun j hj => ?_, ?_⟩
          · rw [hsh]; exact b j hj
          · rw [hsh]; exact c
        rw [read_eq pin fuel k sA hk] at hr
        simp only [Except.ok.injEq, Prod.mk.injEq] at hr
        obtain ⟨hx, hs1⟩ := hr
        subst hs1
        have hval : msbFirst pin (sB.samples + k + 1) = msbFirst pin (sA.samples + k + 1) := by
          apply msbFirst_shift
          intro j
          have := hsh (k + 1 + j)
          simpa [Nat.add_assoc] using this
        obtain ⟨stB, hB⟩ := ih _ { sB with
            samples := sB.samples + k + 25,
            trace := sB.trace ++ [Event.sckOut, Event.dataIn] ++ pollEvents 0 k ++ [Event.lock] ++
              bitEvents pin (sB.samples + k + 1) 24 ++ gainEvents sB._gain ++ [Event.unlock] }
          ws s2 (by
            intro j
            have := hsh (k + 25 + j)
            simpa [Nat.add_assoc] using this) hn
        refine ⟨stB, ?_⟩
        rw [readMany]
        simp only [read_eq pin fuel k sB hkB, bind, Except.bind, hB, pure, Except.pure, hval, hx]

theorem getUnits_zero_offset {D : Type} (fp : FloatOps F D) (pin : Nat → Bool)
    (fuel times : Nat) (st0 : State F) (hoff : st0._offset = 0) (h1 : 1 ≤ times)
    (h2 : times < 256) (hready : ReadsReady pin fuel times st0.samples) :
    ∃ A st', readAverage pin fuel times st0 = Except.ok (A, st') ∧
      getUnits fp pin fuel times st0 =
        Except.ok (fp.narrow (fp.div (fp.ofInt A) (fp.widen st0._scale)), st') := by
  obtain ⟨vs, st', _, hr, t1, t2, _⟩ := readAverage_ok_range pin fuel times st0 h1 h2 hready
  refine ⟨_, st', hr, ?_⟩
  rw [getUnits_eq fp pin fuel times st0 _ st' hr, hoff, Int.sub_zero,
    wrapInt32_of_range _ (by omega) (by omega)]

/-- C20: a construction with the default gain 128 on a device that becomes
ready returns an object with offset 0, scale 1 and pulse count 1, after exactly
one conversion, which emits 25 clock pulses; on that object, for every `times`
from 1 to 255, `getUnits(times)` returns the value `A` of `readAverage(times)`
on the same input, divided by 1 in floating point, and ends in the same state;
in exact arithmetic that is `A` itself. -/
theorem fresh_converter :
    (∀ (D : Type) (fp : FloatOps F D) (pin : Nat → Bool) (fuel uninit samples k : Nat)
        (trace : List Event), ReadyAt pin fuel samples k →
        ∃ st0, HX711 fp pin fuel uninit 128 samples trace = Except.ok ((), st0) ∧
          st0._offset = 0 ∧ st0._scale = fp.one ∧ st0._gain = 1 ∧
          st0.trace = trace ++ [Event.sckOut, Event.sckWrite false] ++
            ([Event.sckOut, Event.dataIn] ++ pollEvents 0 k ++ [Event.lock] ++
              bitEvents pin (samples + k + 1) 24 ++ gainEvents 1 ++ [Event.unlock]) ∧
          clockPulses ([Event.sckOut, Event.dataIn] ++ pollEvents 0 k ++ [Event.lock] ++
              bitEvents pin (samples + k + 1) 24 ++ gainEvents 1 ++ [Event.unlock]) = 25 ∧
          lockCount ([Event.sckOut, Event.dataIn] ++ pollEvents 0 k ++ [Event.lock] ++
              bitEvents pin (samples + k + 1) 24 ++ gainEvents 1 ++ [Event.unlock]) = 1 ∧
          ∀ times, 1 ≤ times → times < 256 → ReadsReady pin fuel times st0.samples →
            ∃ A st', readAverage pin fuel times st0 = Except.ok (A, st') ∧
              getUnits fp pin fuel times st0 =
                Except.ok (fp.narrow (fp.div (fp.ofInt A) (fp.widen fp.one)), st')) ∧
      (∀ (pin : Nat → Bool) (fuel uninit samples k : Nat) (trace : List Event),
        ReadyAt pin fuel samples k →
        ∃ st0, HX711 exactOps pin fuel uninit 128 samples trace = Except.ok ((), st0) ∧
          ∀ times, 1 ≤ times → times < 256 → ReadsReady pin fuel times st0.samples →
            ∃ A st', readAverage pin fuel times st0 = Except.ok (A, st') ∧
              getUnits exactOps pin fuel times st0 = Except.ok ((A : ℚ), st')) := by
  constructor
  · intro D fp pin fuel uninit samples k trace hready
    refine ⟨_, setGain_eq pin fuel k 128 _ hready, rfl, rfl, by simp [gainCode, toUint8], ?_, ?_, ?_,
      ?_⟩
    · simp [gainCode, toUint8]
    · exact read_events_clockPulses pin _ k 1
    · obtain ⟨_, _, p5, _⟩ := pollEvents_counts 0 k
      obtain ⟨g5, _⟩ := gainEvents_locks 1
      obtain ⟨b5, _⟩ := bitEvents_locks pin (samples + k + 1) 24
      simp only [lockCount, List.count_append] at p5 g5 b5 ⊢
      rw [p5, g5, b5]
      simp [List.count_cons]
    · intro times h1 h2 hr
      exact getUnits_zero_offset fp pin fuel times _ rfl h1 h2 hr
  · intro pin fuel uninit samples k trace hready
    refine ⟨_, setGain_eq pin fuel k 128 _ hready, ?_⟩
    intro times h1 h2 hr
    obtain ⟨A, st', ha, hg⟩ := getUnits_zero_offset exactOps pin fuel times _ rfl h1 h2 hr
    refine ⟨A, st', ha, ?_⟩
    rw [hg]
    simp [exactOps]

/-- Witness of C20: a construction with gain 128 on a line that repeats the
word 300, followed by `getUnits(10)`. -/
theorem fresh_converter_witness :
    ∃ st0, HX711 exactOps (cyclic (false :: wordBits 300)) 1 7 128 0 [] = Except.ok ((), st0) ∧
      ∃ A st', readAverage (cyclic (false :: wordBits 300)) 1 10 st0 = Except.ok (A, st') ∧
        getUnits exactOps (cyclic (false :: wordBits 300)) 1 10 st0 = Except.ok ((A : ℚ), st') := by
  obtain ⟨st0, h0, h⟩ :=
    (@fresh_converter ℚ).2 (cyclic (false :: wordBits 300)) 1 7 0 0 []
      ⟨by decide, by decide, by decide⟩
  have hs : st0.samples = 25 := by
    have h0' := @setGain_eq ℚ (cyclic (false :: wordBits 300)) 1 0 128
      { _offset := 0, _scale := exactOps.one, _gain := toUint8 7, samples := 0, trace := [] }
      ⟨by decide, by decide, by decide⟩
    have : HX711 exactOps (cyclic (false :: wordBits 300)) 1 7 128 0 [] = Except.ok ((), st0) := h0
    unfold HX711 at this
    rw [h0'] at this
    simp only [Except.ok.injEq, Prod.mk.injEq, true_and] at this
    rw [← this]
  exact ⟨st0, h0, h 10 (by decide) (by decide)
    (by rw [hs]; exact readsReady_cyclic (wordBits 300) rfl 10 25 rfl)⟩

theorem tare_then_getUnits_eq {D : Type} (fp : FloatOps F D) (pin : Nat → Bool)
    (fuel times : Nat) (st : State F) (h1 : 1 ≤ times) (h2 : times < 256)
    (hready : ReadsReady pin fuel times st.samples)
    (hrep : ∀ st1, tare pin fuel times st = Except.ok ((), st1) →
      ∀ j, pin (st1.samples + j) = pin (st.samples + j)) :
    ∃ vs st1 st2, tare pin fuel times st = Except.ok ((), st1) ∧
      (readMany pin fuel times st).map Prod.fst = Except.ok vs ∧
      readMany pin fuel times st1 = Except.ok (vs, st2) ∧
      st1._offset = Int.tdiv vs.sum (times : Int) ∧
      readAverage pin fuel times st1 = Except.ok (Int.tdiv vs.sum (times : Int), st2) ∧
      getUnits fp pin fuel times st1 =
        Except.ok (fp.narrow (fp.div (fp.ofInt 0) (fp.widen st._scale)), st2) := by
  obtain ⟨vs, st', hm, hr, _, _, _, f2, _⟩ := readAverage_ok_range pin fuel times st h1 h2 hready
  have htare : tare pin fuel times st =
      Except.ok ((), { st' with _offset := Int.tdiv vs.sum (times : Int) }) := by
    unfold tare
    simp only [hr, bind, Except.bind, pure, Except.pure, setOffset]
  have hsh := hrep _ htare
  obtain ⟨st2, hm2⟩ := readMany_shift pin fuel times st
    { st' with _offset := Int.tdiv vs.sum (times : Int) } vs st' hsh hm
  have hr2 : readAverage pin fuel times { st' with _offset := Int.tdiv vs.sum (times : Int) } =
      Except.ok (Int.tdiv vs.sum (times : Int), st2) := by
    rw [readAverage_eq pin fuel times _ h1 h2, hm2]
    rfl
  refine ⟨vs, _, st2, htare, by rw [hm]; rfl, hm2, rfl, hr2, ?_⟩
  rw [getUnits_eq fp pin fuel times _ _ st2 hr2]
  have hz : wrapInt32 (Int.tdiv vs.sum (times : Int) - Int.tdiv vs.sum (times : Int)) = 0 := by
    rw [Int.sub_self]
    decide
  simp only [hz, f2]

/-- C11: for every `times` from 1 to 255, when `tare(times)` runs on a data
line on which the conversions become ready and the line then presents to
`getUnits(times)` again what it presented to `tare(times)`, both calls read
the same raw samples and `getUnits(times)` returns `0 / scale` in floating
point, which for scale 1 is 0 divided by 1; in exact arithmetic it is 0. -/
theorem tare_then_getUnits_zero :
    (∀ (D : Type) (fp : FloatOps F D) (pin : Nat → Bool) (fuel times : Nat) (st : State F),
        1 ≤ times → times < 256 → ReadsReady pin fuel times st.samples →
        st._scale = fp.one →
        (∀ st1, tare pin fuel times st = Except.ok ((), st1) →
          ∀ j, pin (st1.samples + j) = pin (st.samples + j)) →
        ∃ vs st1 st2, tare pin fuel times st = Except.ok ((), st1) ∧
          (readMany pin fuel times st).map Prod.fst = Except.ok vs ∧
          readMany pin fuel times st1 = Except.ok (vs, st2) ∧
          getUnits fp pin fuel times st1 =
            Except.ok (fp.narrow (fp.div (fp.ofInt 0) (fp.widen fp.one)), st2)) ∧
      (∀ (pin : Nat → Bool) (fuel times : Nat) (st : State ℚ),
        1 ≤ times → times < 256 → ReadsReady pin fuel times st.samples →
        st._scale = 1 →
        (∀ st1, tare pin fuel times st = Except.ok ((), st1) →
          ∀ j, pin (st1.samples + j) = pin (st.samples + j)) →
        ∃ st1 st2, tare pin fuel times st = Except.ok ((), st1) ∧
          getUnits exactOps pin fuel times st1 = Except.ok (0, st2)) := by
  constructor
  · intro D fp pin fuel times st h1 h2 hready hscale hrep
    obtain ⟨vs, st1, st2, ht, hv, hm2, _, _, hg⟩ :=
      tare_then_getUnits_eq fp pin fuel times st h1 h2 hready hrep
    rw [hscale] at hg
    exact ⟨vs, st1, st2, ht, hv, hm2, hg⟩
  · intro pin fuel times st h1 h2 hready hscale hrep
    obtain ⟨vs, st1, st2, ht, _, _, _, _, hg⟩ :=
      tare_then_getUnits_eq exactOps pin fuel times st h1 h2 hready hrep
    refine ⟨st1, st2, ht, ?_⟩
    rw [hg, hscale]
    simp [exactOps]

/-- Witness of C11: `tare(2)` and then `getUnits(2)` on a line that repeats the
word 300, with scale 1. -/
theorem tare_then_getUnits_zero_witness :
    ∃ st1 st2, tare (cyclic (false :: wordBits 300)) 1 2 (idle (1 : ℚ) 1) =
        Except.ok ((), st1) ∧
      getUnits exactOps (cyclic (false :: wordBits 300)) 1 2 st1 = Except.ok (0, st2) := by
  apply (@tare_then_getUnits_zero ℚ).2 (cyclic (false :: wordBits 300)) 1 2 (idle (1 : ℚ) 1)
    (by decide) (by decide) (readsReady_cyclic (wordBits 300) rfl 2 0 rfl) rfl
  intro st1 h j
  have hs : (tare (cyclic (false :: wordBits 300)) 1 2 (idle (1 : ℚ) 1)).map
      (fun r => r.2.samples) = Except.ok 50 := rfl
  rw [h] at hs
  simp only [Except.map, Except.ok.injEq] at hs
  have hl : (false :: wordBits 300).length = 25 := rfl
  have hmod : (50 + j) % 25 = (0 + j) % 25 := by omega
  simp only [hs, cyclic, idle, hl, hmod]

end HX711
